import Mathlib

/-!
Verification of the adaptive chunking and multi-chunk extraction-merge engine
of a document-extraction backend.

The development shallowly embeds, over `List Char` texts:
  * the Python string primitives used by the code (slicing with negative-index
    normalization, `str.rfind(' ', a, b)`, `str.strip()`, `' '.join`);
  * the four chunking strategies of `backend/app/chunking/strategies.py`
    (`FixedSizeChunking`, `SentenceAwareChunking`, `SemanticChunking`,
    `SlidingWindowChunking`), including the regex-based sentence splitting
    and structural-boundary detection, modelled at the character level with
    the backtracking semantics of the concrete patterns;
  * the chunk-extraction invoker and merge engine of
    `backend/app/extractors/document_processor.py`
    (`_extract_from_chunks`, `_merge_chunk_results`).

Python `while` loops that the source does not prove terminating are embedded
with an explicit fuel parameter returning `Option`: `some` is the value the
Python loop returns, and divergence shows up as `none` for every fuel.
Confidence scores (Python floats used only in order comparisons and as map
values) are modelled as rationals; texts are ASCII, so Python's unicode
whitespace set coincides with the six ASCII whitespace characters below.
-/

/-! ## Python string primitives -/

/-- The characters of Python's `\s` class / default `str.strip()` set,
restricted to ASCII (all texts in scope are ASCII). -/
def isPySpace (c : Char) : Bool :=
  c == ' ' || c == '\t' || c == '\n' || c == '\r' || c == '\x0b' || c == '\x0c'

/-- Normalize a Python slice index: negative indices count from the end,
then clamp into `[0, n]`. -/
def pyIdx (n : Int) (a : Int) : Nat :=
  (if a < 0 then max 0 (n + a) else min a n).toNat

/-- Python `s[a:b]` on a character list. -/
def pySlice (s : List Char) (a b : Int) : List Char :=
  (s.take (pyIdx s.length b)).drop (pyIdx s.length a)

/-- Python `s.rfind(' ', a, b)`: highest index of `' '` in the normalized
range `[a, b)`, or `-1`. -/
def pyRfindSpace (s : List Char) (a b : Int) : Int :=
  let lo := pyIdx s.length a
  let sl := (s.take (pyIdx s.length b)).drop lo
  match sl.reverse.findIdx? (fun c => c == ' ') with
  | some j => (lo : Int) + ((sl.length - 1 - j : Nat) : Int)
  | none => -1

/-- Python `s.strip()` (ASCII whitespace). -/
def pyStrip (s : List Char) : List Char :=
  ((s.dropWhile isPySpace).reverse.dropWhile isPySpace).reverse

/-- Python `sep.join(parts)` for a one-or-two character separator. -/
def pyJoin (sep : List Char) (parts : List (List Char)) : List Char :=
  (parts.intersperse sep).flatten

/-! ## The `Chunk` dataclass

Mirrors `Chunk` of `chunking/strategies.py`: content, index among siblings,
total sibling count (stamped in a second pass), character offsets into the
original text, and opaque caller metadata (modelled as an uninterpreted
`Option Unit`-style payload; the chunkers only thread it through). -/

/-- Opaque chunk metadata: the chunkers never inspect it. -/
def ChunkMeta : Type := Option (List (String × String))

deriving instance DecidableEq for ChunkMeta

structure Chunk where
  content : List Char
  index : Nat
  total_chunks : Nat
  start_char : Int
  end_char : Int
  metadata : ChunkMeta
deriving DecidableEq

/-- The common finishing pass: re-stamp every chunk's `total_chunks` with the
final list length. -/
def restamp (l : List Chunk) : List Chunk :=
  l.map (fun c => { c with total_chunks := l.length })

/-- Re-assign `index := k, k+1, ...` along a spliced-in chunk list
(`sc.index = len(chunks)` in the source's splice loops). -/
def reindexFrom (k : Nat) : List Chunk → List Chunk
  | [] => []
  | c :: rest => { c with index := k } :: reindexFrom (k + 1) rest

/-! ## `FixedSizeChunking`

`chunk` walks the text in windows of `chunk_size`; a mid-text window edge is
pulled back to just after the last space strictly inside the window; the next
window starts at `end - chunk_overlap`.  The `while` loop is embedded with
fuel: the loop state is `(start, chunk_index, chunks)`. -/

/-- The `if chunk_content: chunks.append(...); chunk_index += 1` step shared
by the Fixed-Size and Sliding-Window loops: conditionally append the stripped
window content (at index `idx`) and advance the index. -/
def appendChunk (md : ChunkMeta) (start e : Int) (c : List Char)
    (idx : Nat) (acc : List Chunk) : Nat × List Chunk :=
  if c ≠ [] then (idx + 1, acc ++ [⟨c, idx, 0, start, e, md⟩]) else (idx, acc)

/-- The window end of one Fixed-Size iteration: `min(start + size, len)`,
pulled back to just after the last space strictly inside the window when the
edge falls mid-text. -/
def windowEnd (cs : Int) (text : List Char) (start : Int) : Int :=
  let end0 := min (start + cs) (text.length : Int)
  if end0 < (text.length : Int) then
    let ls := pyRfindSpace text start end0
    if ls > start then ls + 1 else end0
  else end0

def fixedSizeLoop (cs ov : Int) (text : List Char) (md : ChunkMeta) :
    Nat → Int → Nat → List Chunk → Option (List Chunk)
  | 0, _, _, _ => none
  | fuel + 1, start, idx, acc =>
    if start < (text.length : Int) then
      let e := windowEnd cs text start
      let nxt := appendChunk md start e (pyStrip (pySlice text start e)) idx acc
      if e < (text.length : Int) then
        fixedSizeLoop cs ov text md fuel (e - ov) nxt.1 nxt.2
      else
        some nxt.2
    else
      some acc

/-- `FixedSizeChunking.chunk`. -/
def fixedSizeChunk (cs ov : Int) (fuel : Nat) (text : List Char)
    (md : ChunkMeta) : Option (List Chunk) :=
  if (text.length : Int) ≤ cs then
    some [⟨text, 0, 1, 0, (text.length : Int), md⟩]
  else
    (fixedSizeLoop cs ov text md fuel 0 0 []).map restamp

/-! ## Sentence splitting

`SentenceAwareChunking` splits on the regex `(?<=[.!?])\s+(?=[A-Z])`.
A match of `\s+` with these lookarounds is exactly a maximal whitespace run
immediately preceded by `.`, `!` or `?` and immediately followed by an ASCII
capital (a shorter, backtracked run would be followed by whitespace, which is
not `[A-Z]`; positions inside a run are preceded by whitespace, which is not
`[.!?]`).  `re.split` removes each matched run. -/

def isSentenceEnd (c : Char) : Bool := c == '.' || c == '!' || c == '?'

def isUpperAscii (c : Char) : Bool := 'A' ≤ c && c ≤ 'Z'

/-- Length of the run of characters satisfying `p` starting at index `i`. -/
def countRun (text : List Char) (i : Nat) (p : Char → Bool) : Nat :=
  ((text.drop i).takeWhile p).length

/-- If the split regex matches at position `i`, the end of the matched
whitespace run, else `none`. -/
def sentenceRunAt (text : List Char) (i : Nat) : Option Nat :=
  if i = 0 then none
  else
    match text.get? (i - 1) with
    | none => none
    | some prev =>
      if isSentenceEnd prev then
        let w := countRun text i isPySpace
        if w = 0 then none
        else
          match text.get? (i + w) with
          | some nxt => if isUpperAscii nxt then some (i + w) else none
          | none => none
      else none

/-- The scan loop of the regex engine: starting at `s`, find the next match,
emit its run, continue at the match's end.  `fuel = text.length + 1` always
suffices because the scan position strictly increases (every match is
non-empty). -/
def scanRuns (matchAt : Nat → Option Nat) (n : Nat) :
    Nat → Nat → List (Nat × Nat)
  | 0, _ => []
  | fuel + 1, s =>
    if n ≤ s then []
    else
      match matchAt s with
      | some e => (s, e) :: scanRuns matchAt n fuel (max e (s + 1))
      | none => scanRuns matchAt n fuel (s + 1)

/-- The matched whitespace runs of `(?<=[.!?])\s+(?=[A-Z])` over the text. -/
def sentenceRuns (text : List Char) : List (Nat × Nat) :=
  scanRuns (sentenceRunAt text) text.length (text.length + 1) 0

/-- Cut the text at the matched runs (`re.split` drops the matched text).
`pos` is the absolute position where the current piece starts. -/
def cutAtRuns (text : List Char) : List (Nat × Nat) → Nat → List (List Char)
  | [], pos => [text.drop pos]
  | (i, j) :: rest, pos => ((text.take i).drop pos) :: cutAtRuns text rest j

/-- `self.sentence_endings.split(text)`. -/
def splitSentences (text : List Char) : List (List Char) :=
  cutAtRuns text (sentenceRuns text) 0

/-! ## `SentenceAwareChunking`

Greedy sentence packing with sentence-level overlap seeding.  Over-long
sentences are split by a fresh `FixedSizeChunking(chunk_size, chunk_overlap)`
and spliced in with re-assigned indices.  The running state mirrors the
Python locals `chunks, current_chunk, current_size, start_char`. -/

structure SAState where
  chunks : List Chunk
  cur : List (List Char)
  size : Int
  startChar : Int

/-- The trailing-sentence overlap selection: iterate `reversed(current_chunk)`
accumulating sentences while the accumulated size stays `≤ chunk_overlap`,
stopping at the first failure.  Called with the reversed buffer; returns the
kept sentences in original order together with their total size. -/
def overlapTakeRev (ov : Int) (acc : List (List Char)) (size : Int) :
    List (List Char) → List (List Char) × Int
  | [] => (acc, size)
  | s :: rest =>
    if size + (s.length : Int) ≤ ov then
      overlapTakeRev ov (s :: acc) (size + (s.length : Int)) rest
    else (acc, size)

/-- Emit the current buffer as a chunk (index = current list length,
`total_chunks` stamped later). -/
def saEmit (md : ChunkMeta) (sep : List Char) (st : SAState) : List Chunk :=
  let content := pyJoin sep st.cur
  st.chunks ++
    [⟨content, st.chunks.length, 0, st.startChar,
      st.startChar + (content.length : Int), md⟩]

/-- One iteration of the `for sentence in sentences` loop. -/
def saStep (cs ov : Int) (fuel : Nat) (md : ChunkMeta) (st : SAState)
    (sentence : List Char) : Option SAState :=
  if (sentence.length : Int) > cs then
    let st1 :=
      if st.cur ≠ [] then
        { chunks := saEmit md [' '] st
          cur := []
          size := 0
          startChar := st.startChar + ((pyJoin [' '] st.cur).length : Int) }
      else st
    match fixedSizeChunk cs ov fuel sentence md with
    | none => none
    | some scs =>
      some { st1 with chunks := st1.chunks ++ reindexFrom st1.chunks.length scs }
  else
    let st2 :=
      if st.size + (sentence.length : Int) > cs ∧ st.cur ≠ [] then
        let content := pyJoin [' '] st.cur
        let p := if ov > 0 then overlapTakeRev ov [] 0 st.cur.reverse else ([], 0)
        { chunks := saEmit md [' '] st
          cur := p.1
          size := p.2
          startChar := st.startChar + (content.length : Int) - p.2 }
      else st
    some { st2 with cur := st2.cur ++ [sentence],
                    size := st2.size + (sentence.length : Int) }

def saFold (cs ov : Int) (fuel : Nat) (md : ChunkMeta) :
    SAState → List (List Char) → Option SAState
  | st, [] => some st
  | st, s :: rest =>
    match saStep cs ov fuel md st s with
    | none => none
    | some st' => saFold cs ov fuel md st' rest

/-- `SentenceAwareChunking.chunk`. -/
def sentenceAwareChunk (cs ov : Int) (fuel : Nat) (text : List Char)
    (md : ChunkMeta) : Option (List Chunk) :=
  let sentences := splitSentences text
  if sentences = [] then some []
  else
    match saFold cs ov fuel md ⟨[], [], 0, 0⟩ sentences with
    | none => none
    | some st =>
      let final := if st.cur ≠ [] then saEmit md [' '] st else st.chunks
      some (restamp final)

/-! ## Structural boundary detection (`SemanticChunking`)

The four MULTILINE section patterns are modelled as character-level matchers
returning the match end when the pattern matches at a position.  Each matcher
replicates the backtracking semantics of its concrete pattern:

  * `^#+\s+(.+)$` — `#+` is effectively maximal (a shorter run is followed by
    `#`, which `\s` rejects).  If the whitespace run after the hashes is
    followed by a character (necessarily not a newline), `.+` runs to the end
    of that line and `$` holds there.  If the run reaches the end of the text,
    `\s+` backtracks and `.+` must take at least one non-newline whitespace
    character from the run's tail: the match succeeds iff some run index
    `m ∈ [1, w)` holds a non-newline character, the engine keeping the largest
    such `m` (then `$` holds right after it: the following run characters are
    all newlines).
  * `^[A-Z][A-Z\s]+:$` — the class run is effectively maximal (`:` is not in
    the class), so the colon must sit right after it, at a line end.
  * `^\d+\.\s+[A-Z]` — digit run maximal (a dot is not a digit), whitespace
    run maximal (`[A-Z]` rejects whitespace).
  * `^-{3,}$` — hyphen run maximal (`$` rejects `-`). -/

def isDigitAscii (c : Char) : Bool := '0' ≤ c && c ≤ '9'

/-- MULTILINE `^`: start of text or just after a newline. -/
def lineStartB (text : List Char) (p : Nat) : Bool :=
  p = 0 || text.get? (p - 1) == some '\n'

/-- MULTILINE `$`: end of text or just before a newline. -/
def lineEndB (text : List Char) (p : Nat) : Bool :=
  p = text.length || text.get? p == some '\n'

/-- End of the line containing position `r`: the index of the next newline at
or after `r`, or the text length. -/
def lineEndFrom (text : List Char) (r : Nat) : Nat :=
  r + countRun text r (fun c => !(c == '\n'))

/-- `^#+\s+(.+)$` (markdown headers). -/
def matchMd (text : List Char) (p : Nat) : Option Nat :=
  if !(lineStartB text p) then none
  else
    let k := countRun text p (fun c => c == '#')
    if k = 0 then none
    else
      let q := p + k
      let w := countRun text q isPySpace
      if w = 0 then none
      else
        if q + w < text.length then some (lineEndFrom text (q + w))
        else
          match ((List.range w).filter
              (fun m => 1 ≤ m && !(text.get? (q + m) == some '\n'))).getLast? with
          | some m => some (q + m + 1)
          | none => none

/-- `^[A-Z][A-Z\s]+:$` (ALL-CAPS header lines). -/
def matchCaps (text : List Char) (p : Nat) : Option Nat :=
  if !(lineStartB text p) then none
  else
    match text.get? p with
    | none => none
    | some c0 =>
      if !(isUpperAscii c0) then none
      else
        let s := countRun text (p + 1) (fun c => isUpperAscii c || isPySpace c)
        if s = 0 then none
        else if text.get? (p + 1 + s) == some ':' && lineEndB text (p + 2 + s) then
          some (p + 2 + s)
        else none

/-- `^\d+\.\s+[A-Z]` (numbered sections). -/
def matchNum (text : List Char) (p : Nat) : Option Nat :=
  if !(lineStartB text p) then none
  else
    let d := countRun text p isDigitAscii
    if d = 0 then none
    else if !(text.get? (p + d) == some '.') then none
    else
      let w := countRun text (p + d + 1) isPySpace
      if w = 0 then none
      else
        match text.get? (p + d + 1 + w) with
        | some nxt => if isUpperAscii nxt then some (p + d + 1 + w + 1) else none
        | none => none

/-- `^-{3,}$` (horizontal rules). -/
def matchHr (text : List Char) (p : Nat) : Option Nat :=
  if !(lineStartB text p) then none
  else
    let k := countRun text p (fun c => c == '-')
    if k < 3 then none
    else if lineEndB text (p + k) then some (p + k) else none

/-- All `match.start()` positions collected pattern by pattern
(`pattern.finditer(text)` for each of the four patterns). -/
def allBoundaries (text : List Char) : List Nat :=
  (scanRuns (matchMd text) text.length (text.length + 1) 0).map Prod.fst ++
  (scanRuns (matchCaps text) text.length (text.length + 1) 0).map Prod.fst ++
  (scanRuns (matchNum text) text.length (text.length + 1) 0).map Prod.fst ++
  (scanRuns (matchHr text) text.length (text.length + 1) 0).map Prod.fst

/-- Remove consecutive duplicates (on a sorted list this is `set` dedup). -/
def dedupSorted : List Nat → List Nat
  | [] => []
  | [x] => [x]
  | x :: y :: rest =>
    if x = y then dedupSorted (y :: rest) else x :: dedupSorted (y :: rest)

/-- Python `sorted(set(l))`: the sorted list of the distinct values. -/
def sortedDedup (l : List Nat) : List Nat :=
  dedupSorted (List.insertionSort (· ≤ ·) l)

/-- The piece-extraction loop of `_identify_sections` for `i ≥ 0`: each
boundary contributes the stripped text up to the next boundary (or the end),
kept only when non-empty. -/
def sectionsGo (text : List Char) : List Nat → List (List Char)
  | [] => []
  | [b] =>
    let s := pyStrip (text.drop b)
    if s ≠ [] then [s] else []
  | b :: b2 :: rest =>
    let s := pyStrip ((text.take b2).drop b)
    (if s ≠ [] then [s] else []) ++ sectionsGo text (b2 :: rest)

/-- `SemanticChunking._identify_sections`.  With no boundaries the whole text
is the single section; otherwise a (possibly empty) stripped prefix is
appended unconditionally when the first boundary is positive, then the
boundary-delimited pieces. -/
def identifySections (text : List Char) : List (List Char) :=
  match sortedDedup (allBoundaries text) with
  | [] => [text]
  | b0 :: rest =>
    (if b0 > 0 then [pyStrip (text.take b0)] else []) ++
      sectionsGo text (b0 :: rest)

/-! ## `SemanticChunking.chunk`

Greedy section packing, joining with a blank line; oversized sections are
split by a fresh `SentenceAwareChunking(chunk_size, chunk_overlap)` and
spliced in with re-assigned indices; no overlap seeding between packed
chunks. -/

structure SecState where
  chunks : List Chunk
  cur : List (List Char)
  size : Int
  startChar : Int

def secEmit (md : ChunkMeta) (st : SecState) : List Chunk :=
  let content := pyJoin ['\n', '\n'] st.cur
  st.chunks ++
    [⟨content, st.chunks.length, 0, st.startChar,
      st.startChar + (content.length : Int), md⟩]

/-- One iteration of the `for section_text in sections` loop. -/
def secStep (cs ov : Int) (fuel : Nat) (md : ChunkMeta) (st : SecState)
    (sec : List Char) : Option SecState :=
  if (sec.length : Int) > cs then
    let st1 :=
      if st.cur ≠ [] then
        { chunks := secEmit md st
          cur := []
          size := 0
          startChar := st.startChar + ((pyJoin ['\n', '\n'] st.cur).length : Int) }
      else st
    match sentenceAwareChunk cs ov fuel sec md with
    | none => none
    | some scs =>
      some { st1 with chunks := st1.chunks ++ reindexFrom st1.chunks.length scs }
  else
    let st2 :=
      if st.size + (sec.length : Int) > cs ∧ st.cur ≠ [] then
        { chunks := secEmit md st
          cur := []
          size := 0
          startChar := st.startChar + ((pyJoin ['\n', '\n'] st.cur).length : Int) }
      else st
    some { st2 with cur := st2.cur ++ [sec],
                    size := st2.size + (sec.length : Int) }

def secFold (cs ov : Int) (fuel : Nat) (md : ChunkMeta) :
    SecState → List (List Char) → Option SecState
  | st, [] => some st
  | st, s :: rest =>
    match secStep cs ov fuel md st s with
    | none => none
    | some st' => secFold cs ov fuel md st' rest

/-- `SemanticChunking.chunk`. -/
def semanticChunk (cs ov : Int) (fuel : Nat) (text : List Char)
    (md : ChunkMeta) : Option (List Chunk) :=
  let sections := identifySections text
  if sections = [] then sentenceAwareChunk cs ov fuel text md
  else
    match secFold cs ov fuel md ⟨[], [], 0, 0⟩ sections with
    | none => none
    | some st =>
      let final := if st.cur ≠ [] then secEmit md st else st.chunks
      let stamped := restamp final
      some (if stamped = [] then
        [⟨text, 0, 1, 0, (text.length : Int), md⟩] else stamped)

/-! ## `SlidingWindowChunking`

Uniform windows advanced by `stride`.  The constructor replaces a falsy
(`None` or `0`) stride with `chunk_size - chunk_overlap`; the loop breaks
after one iteration when the effective stride is `0` ("prevent infinite
loop"), which only happens when `chunk_size = chunk_overlap`. -/

/-- The configuration stored by `BaseChunkingStrategy.__init__` (shared by
the four strategies): the two sizes are assigned verbatim, with no
validation of any kind. -/
structure ChunkingConfig where
  chunk_size : Int
  chunk_overlap : Int
deriving DecidableEq

/-- `BaseChunkingStrategy.__init__`. -/
def baseChunkingInit (cs ov : Int) : ChunkingConfig := ⟨cs, ov⟩

structure SlidingWindowConfig where
  chunk_size : Int
  chunk_overlap : Int
  stride : Int
deriving DecidableEq

/-- `SlidingWindowChunking.__init__` (the base `__init__` performs no
validation either; it just stores the two sizes). -/
def slidingWindowInit (cs ov : Int) (stride : Option Int) : SlidingWindowConfig :=
  { chunk_size := cs
    chunk_overlap := ov
    stride := match stride with
      | some s => if s ≠ 0 then s else cs - ov
      | none => cs - ov }

def slidingLoop (cs stride : Int) (text : List Char) (md : ChunkMeta) :
    Nat → Int → Nat → List Chunk → Option (List Chunk)
  | 0, _, _, _ => none
  | fuel + 1, start, idx, acc =>
    if start < (text.length : Int) then
      let e := min (start + cs) (text.length : Int)
      let nxt := appendChunk md start e (pyStrip (pySlice text start e)) idx acc
      if stride = 0 then some nxt.2
      else slidingLoop cs stride text md fuel (start + stride) nxt.1 nxt.2
    else some acc

/-- `SlidingWindowChunking.chunk`. -/
def slidingWindowChunk (cfg : SlidingWindowConfig) (fuel : Nat)
    (text : List Char) (md : ChunkMeta) : Option (List Chunk) :=
  (slidingLoop cfg.chunk_size cfg.stride text md fuel 0 0 []).map restamp

/-! ## Extraction results and the merge engine

`ExtractionResult` of `llm_providers/base.py`: field→value and
field→confidence maps (Python dicts, modelled as insertion-ordered
association lists), plus provenance fields.  Values are opaque to the merge;
confidence floats are used only in comparisons and modelled as rationals. -/

/-- An extracted field value (opaque to the merge engine). -/
inductive PyValue where
  | str (s : String)
  | int (i : Int)
  | bool (b : Bool)
  | null
deriving DecidableEq

/-- Python dict lookup `d[k]` / `d.get(k)`: value at the first (unique in a
real dict) occurrence of the key. -/
def dget {α : Type} (d : List (String × α)) (k : String) : Option α :=
  (d.find? (fun kv => kv.1 == k)).map (fun kv => kv.2)

/-- Python `d.get(k, default)`. -/
def dgetD {α : Type} (d : List (String × α)) (k : String) (v : α) : α :=
  (dget d k).getD v

/-- Python dict assignment `d[k] = v`: replace in place if present, else
append. -/
def dset {α : Type} (d : List (String × α)) (k : String) (v : α) :
    List (String × α) :=
  match d with
  | [] => [(k, v)]
  | (k', v') :: rest =>
    if k' == k then (k, v) :: rest else (k', v') :: dset rest k v

structure ExtractionResult where
  extracted_data : List (String × PyValue)
  confidence_scores : List (String × ℚ)
  raw_response : String
  model_used : String
  provider_type : String
  tokens_used : Option Int
  processing_time : Option ℚ
  metadata : Option (List (String × PyValue))
deriving DecidableEq

/-- The inner `for field, value in result.extracted_data.items()` loop body of
`_merge_chunk_results`, folded over one partial result's fields.  The state is
the pair `(merged_data, merged_confidence)`. -/
def mergeStep (acc : List (String × PyValue) × List (String × ℚ))
    (result : ExtractionResult) : List (String × PyValue) × List (String × ℚ) :=
  result.extracted_data.foldl
    (fun st kv =>
      let confidence := dgetD result.confidence_scores kv.1 0
      if dget st.1 kv.1 = none ∨ confidence > dgetD st.2 kv.1 0 then
        (dset st.1 kv.1 kv.2, dset st.2 kv.1 confidence)
      else st)
    acc

/-- `DocumentProcessor._merge_chunk_results`.  Raises on an empty list,
returns a singleton unchanged, otherwise keeps the most confident value per
field (first writer wins on ties) and tags the result with the count of
merged partials. -/
def mergeChunkResults (rs : List ExtractionResult) :
    Except String ExtractionResult :=
  match rs with
  | [] => Except.error "No chunk results to merge"
  | [r] => Except.ok r
  | r0 :: _ :: _ =>
    let st := rs.foldl mergeStep ([], [])
    Except.ok
      { extracted_data := st.1
        confidence_scores := st.2
        raw_response := "[Merged from multiple chunks]"
        model_used := r0.model_used
        provider_type := r0.provider_type
        tokens_used := none
        processing_time := none
        metadata := some [("chunks_merged", PyValue.int rs.length)] }

/-! ## The per-chunk extraction invoker

`DocumentProcessor._extract_from_chunks`: optionally truncate the chunk list
to the first `max_chunks_to_process` entries (Python truthiness: `None` and
`0` both skip truncation), call the extraction collaborator per chunk,
dropping failing chunks with a warning that records the chunk index, then
merge.  The collaborator is a parameter; a raised exception is `Except.error`. -/

/-- `DocumentChunk` of `loaders/base.py` (the fields the invoker reads are
`content` and `chunk_index`). -/
structure DocumentChunk where
  content : List Char
  chunk_index : Int
  total_chunks : Int
  page_number : Option Int
  metadata : Option (List (String × PyValue))
  confidence : ℚ
deriving DecidableEq

/-- The `for chunk in chunks_to_process: try ... except` loop: successful
results in order, plus the warned chunk indices of failing chunks. -/
def extractLoop (extract : List Char → Except String ExtractionResult) :
    List DocumentChunk → List ExtractionResult × List Int
  | [] => ([], [])
  | c :: rest =>
    let p := extractLoop extract rest
    match extract c.content with
    | Except.ok r => (r :: p.1, p.2)
    | Except.error _ => (p.1, c.chunk_index :: p.2)

/-- `DocumentProcessor._extract_from_chunks` (from the truncation step on;
`maxChunks` is `config.max_chunks_to_process`, non-negative per the
configuration surface). -/
def extractFromChunks (maxChunks : Option Nat)
    (extract : List Char → Except String ExtractionResult)
    (chunks : List DocumentChunk) : Except String ExtractionResult :=
  let toProcess :=
    match maxChunks with
    | some m => if m ≠ 0 then chunks.take m else chunks
    | none => chunks
  mergeChunkResults (extractLoop extract toProcess).1

/-! ## Specification vocabulary for the merge engine

`presentIn`, `confAt` and `listMaxQ` express the spec's "maximum of `f`'s
confidence over all partials in which `f` is present (absent confidence
counts as 0.0)"; `MergeStateOk` is the per-field characterization of the
merge fold's running state. -/

/-- The field `f` is present in the partial's `fields` map. -/
def presentIn (f : String) (r : ExtractionResult) : Bool :=
  (dget r.extracted_data f).isSome

/-- `r.confidence_scores.get(f, 0.0)`. -/
def confAt (f : String) (r : ExtractionResult) : ℚ :=
  dgetD r.confidence_scores f 0

/-- Maximum of a rational list (`none` on the empty list). -/
def listMaxQ : List ℚ → Option ℚ
  | [] => none
  | x :: xs =>
    match listMaxQ xs with
    | none => some x
    | some m => some (max x m)

/-- Per-field specification of the merge state after the partials `ps` have
been folded in: for a field present in no processed partial both maps are
unset; otherwise the confidence map holds the running maximum and the data
map holds the value of the first partial attaining it. -/
def MergeStateOk (ps : List ExtractionResult)
    (md : List (String × PyValue)) (mc : List (String × ℚ)) : Prop :=
  ∀ f : String,
    (listMaxQ ((ps.filter (fun p => presentIn f p)).map (fun p => confAt f p))
        = none →
      dget md f = none ∧ dget mc f = none)
    ∧ ∀ m : ℚ,
      listMaxQ ((ps.filter (fun p => presentIn f p)).map (fun p => confAt f p))
          = some m →
      dget mc f = some m
      ∧ ∃ p, ps.find? (fun p => presentIn f p && (confAt f p == m)) = some p
          ∧ dget md f = dget p.extracted_data f

/-- A fixed field name used by concrete merge examples. -/
def f0c1w : String := "f"

/-! # Theorems -/

/-! ## C4 — Fixed-Size advance / termination

The spec asserts the window start advances by at least
`chunk_size - chunk_overlap` every iteration, so the loop terminates for
every text.  In the code the word-boundary pull-back can move the window end
to just after an early space, making the advance zero or negative: with
`chunk_size = 5, chunk_overlap = 3` and the text `"ab ccccccccccccc"`, the
first window `[0, 5)` is pulled back to end `3` (the space at index 2), and
the next start is `3 - 3 = 0` — the loop revisits start `0` forever. -/

theorem fixedSizeLoop_c4_step (fuel : Nat) (idx : Nat) (acc : List Chunk) :
    fixedSizeLoop 5 3 (("ab ccccccccccccc").data) none (fuel + 1) 0 idx acc
      = fixedSizeLoop 5 3 (("ab ccccccccccccc").data) none fuel 0 (idx + 1)
          (acc ++ [⟨("ab").data, idx, 0, 0, 3, none⟩]) := rfl

theorem fixedSizeLoop_c4_diverges (fuel : Nat) :
    ∀ (idx : Nat) (acc : List Chunk),
      fixedSizeLoop 5 3 (("ab ccccccccccccc").data) none fuel 0 idx acc = none := by
  induction fuel with
  | zero => intro idx acc; rfl
  | succ n ih =>
    intro idx acc
    rw [fixedSizeLoop_c4_step]
    exact ih (idx + 1) (acc ++ [⟨("ab").data, idx, 0, 0, 3, none⟩])

/-- C4: the claim that in Fixed-Size chunking of any text longer than
`chunk_size` (with `0 ≤ chunk_overlap < chunk_size`) the window start
strictly advances by at least `chunk_size - chunk_overlap` per iteration, so
the loop terminates on every input, is refuted by the code: on the text
`"ab ccccccccccccc"` with `chunk_size = 5, chunk_overlap = 3` (a valid
configuration) the first iteration advances the start by `0` and the loop
never terminates — for every fuel the embedded loop is still running. -/
theorem c4_fixed_size_loop_diverges (fuel : Nat) :
    fixedSizeChunk 5 3 fuel (("ab ccccccccccccc").data) none = none := by
  have h : ¬ ((("ab ccccccccccccc").data.length : Int) ≤ 5) := by decide
  unfold fixedSizeChunk
  rw [if_neg h, fixedSizeLoop_c4_diverges fuel 0 []]
  rfl

/-! ## C6 — merge on a singleton list -/

/-- C6 (amended): `merge([p])` returns `p` itself — fields, confidence and
metadata all unchanged; no `sources_merged`/`chunks_merged` tag is added on
the singleton path (the tag only appears when two or more partials are
merged). -/
theorem c6_merge_singleton_unchanged (p : ExtractionResult) :
    mergeChunkResults [p] = Except.ok p := rfl

/-- C6 counterexample: the claim additionally asserts the returned result is
tagged with `sources_merged = 1`; but for a concrete partial with empty
metadata the merge returns it verbatim, with metadata still `none` — no tag
of any kind is attached. -/
theorem c6_counterexample_no_tag :
    mergeChunkResults
        [{ extracted_data := [("patient_name", PyValue.str "A")]
           confidence_scores := [("patient_name", mkRat 1 2)]
           raw_response := "r"
           model_used := "m"
           provider_type := "ollama"
           tokens_used := none
           processing_time := none
           metadata := none }]
      = Except.ok
        { extracted_data := [("patient_name", PyValue.str "A")]
          confidence_scores := [("patient_name", mkRat 1 2)]
          raw_response := "r"
          model_used := "m"
          provider_type := "ollama"
          tokens_used := none
          processing_time := none
          metadata := none }
    ∧ ({ extracted_data := [("patient_name", PyValue.str "A")]
         confidence_scores := [("patient_name", mkRat 1 2)]
         raw_response := "r"
         model_used := "m"
         provider_type := "ollama"
         tokens_used := none
         processing_time := none
         metadata := none } : ExtractionResult).metadata = none := by
  constructor
  · rfl
  · rfl

/-! ## C3 — construction-time validation -/

theorem appendChunk_snd_length_le (md : ChunkMeta) (start e : Int)
    (c : List Char) (idx : Nat) (acc : List Chunk) :
    (appendChunk md start e c idx acc).2.length ≤ acc.length + 1 := by
  unfold appendChunk
  split <;> simp

/-- `restamp` preserves list length. -/
theorem restamp_length (l : List Chunk) : (restamp l).length = l.length := by
  simp [restamp]

/-- C3 counterexample: no configuration is rejected at construction time.
`BaseChunkingStrategy.__init__` accepts `chunk_overlap ≥ chunk_size` and
`chunk_size ≤ 0` verbatim; `SlidingWindowChunking.__init__(4, 4)` yields a
live strategy whose effective stride is `0`, and calling `chunk` on it
returns normally after a single window (a call-time break) instead of the
construction failing. -/
theorem c3_counterexample_construction_succeeds :
    baseChunkingInit 5 10 = { chunk_size := 5, chunk_overlap := 10 }
    ∧ baseChunkingInit 0 0 = { chunk_size := 0, chunk_overlap := 0 }
    ∧ slidingWindowInit 4 4 none
        = { chunk_size := 4, chunk_overlap := 4, stride := 0 }
    ∧ slidingWindowChunk (slidingWindowInit 4 4 none) 9
          (("abcdefghij").data) none
        = some [⟨("abcd").data, 0, 1, 0, 4, none⟩] := by
  refine ⟨rfl, rfl, rfl, ?_⟩
  rfl

/-- C3 (amended): the constructors perform no validation — any
`chunk_size`/`chunk_overlap` pair is stored as-is; `SlidingWindowChunking`
replaces a falsy stride (`0` or `None`) with `chunk_size - chunk_overlap`
at construction, and if the effective stride is `0` (only possible when
`chunk_size = chunk_overlap`) the `chunk` call terminates after the first
window at call time via an explicit break, never looping. -/
theorem c3_no_construction_validation (cs ov : Int) (cfg : SlidingWindowConfig)
    (fuel : Nat) (text : List Char) (md : ChunkMeta)
    (hs : cfg.stride = 0) (hf : 1 ≤ fuel) :
    baseChunkingInit cs ov = { chunk_size := cs, chunk_overlap := ov }
    ∧ (slidingWindowInit cs ov (some 0)).stride = cs - ov
    ∧ (slidingWindowInit cs ov none).stride = cs - ov
    ∧ ∃ l, slidingWindowChunk cfg fuel text md = some l ∧ l.length ≤ 1 := by
  refine ⟨rfl, by simp [slidingWindowInit], rfl, ?_⟩
  obtain ⟨f, rfl⟩ : ∃ f, fuel = f + 1 := ⟨fuel - 1, by omega⟩
  unfold slidingWindowChunk
  rw [hs]
  unfold slidingLoop
  by_cases hl : (0 : Int) < (text.length : Int)
  · rw [if_pos hl, if_pos rfl]
    refine ⟨_, rfl, ?_⟩
    rw [restamp_length]
    have h1 := appendChunk_snd_length_le md 0
      (min (0 + cfg.chunk_size) (text.length : Int))
      (pyStrip (pySlice text 0 (min (0 + cfg.chunk_size) (text.length : Int))))
      0 []
    simpa using h1
  · rw [if_neg hl]
    exact ⟨_, rfl, by simp [restamp_length]⟩

/-- C3 witness: the amended theorem at a concrete invalid configuration. -/
theorem c3_no_construction_validation_witness :
    baseChunkingInit 6 2 = { chunk_size := 6, chunk_overlap := 2 }
    ∧ (slidingWindowInit 6 2 (some 0)).stride = 4
    ∧ (slidingWindowInit 6 2 none).stride = 4
    ∧ ∃ l, slidingWindowChunk { chunk_size := 4, chunk_overlap := 4, stride := 0 } 3
          (("abcde").data) none = some l ∧ l.length ≤ 1 :=
  c3_no_construction_validation 6 2
    { chunk_size := 4, chunk_overlap := 4, stride := 0 }
    3 (("abcde").data) none rfl (by decide)

/-! ## Helper lemmas on the string primitives and the regex scan -/

theorem pyStrip_length_le (s : List Char) : (pyStrip s).length ≤ s.length := by
  unfold pyStrip
  calc ((s.dropWhile isPySpace).reverse.dropWhile isPySpace).reverse.length
      = ((s.dropWhile isPySpace).reverse.dropWhile isPySpace).length := by
        rw [List.length_reverse]
    _ ≤ (s.dropWhile isPySpace).reverse.length :=
        (List.dropWhile_suffix _).sublist.length_le
    _ = (s.dropWhile isPySpace).length := by rw [List.length_reverse]
    _ ≤ s.length := (List.dropWhile_suffix _).sublist.length_le

theorem pyStrip_nil : pyStrip [] = [] := rfl

theorem countRun_lt_of_get (text : List Char) (i : Nat) (p : Char → Bool)
    (c : Char) (h : text.get? (i + countRun text i p) = some c) :
    i + countRun text i p < text.length := by
  by_contra hc
  rw [List.get?_eq_none.mpr (by omega)] at h
  exact Option.noConfusion h

/-- A sentence-split match is non-empty and ends inside the text. -/
theorem sentenceRunAt_lt (text : List Char) (i j : Nat)
    (h : sentenceRunAt text i = some j) : i < j ∧ j ≤ text.length := by
  unfold sentenceRunAt at h
  split at h
  · exact Option.noConfusion h
  · split at h
    · exact Option.noConfusion h
    · split at h
      · dsimp only at h
        split at h
        · exact Option.noConfusion h
        · split at h
          · split at h
            · rename_i hw nxt hn hu
              have hj := Option.some.inj h
              have hlt := countRun_lt_of_get text i isPySpace nxt hn
              omega
            · exact Option.noConfusion h
          · exact Option.noConfusion h
      · exact Option.noConfusion h

/-- Fused bound: cutting the text at the runs the scanner finds from
position `s` yields pieces of total length at most `text.length - pos`,
whenever every match is non-empty and in range. -/
theorem scanCut_sum_le (text : List Char) (matchAt : Nat → Option Nat)
    (hm : ∀ s e, matchAt s = some e → s < e ∧ e ≤ text.length) :
    ∀ (fuel : Nat) (s pos : Nat), pos ≤ text.length → pos ≤ s →
      ((cutAtRuns text (scanRuns matchAt text.length fuel s) pos).map
          List.length).sum + pos ≤ text.length := by
  intro fuel
  induction fuel with
  | zero =>
    intro s pos hpos _
    simp only [scanRuns, cutAtRuns, List.map_cons, List.map_nil, List.sum_cons,
      List.sum_nil, List.length_drop]
    omega
  | succ n ih =>
    intro s pos hpos hps
    unfold scanRuns
    by_cases hns : text.length ≤ s
    · rw [if_pos hns]
      simp only [cutAtRuns, List.map_cons, List.map_nil, List.sum_cons,
        List.sum_nil, List.length_drop]
      omega
    · rw [if_neg hns]
      cases hma : matchAt s with
      | some e =>
        obtain ⟨hse, hel⟩ := hm s e hma
        have hmax : max e (s + 1) = e := by omega
        dsimp only
        rw [hmax]
        simp only [cutAtRuns, List.map_cons, List.sum_cons, List.length_drop,
          List.length_take]
        have hrec := ih e e hel (le_refl e)
        omega
      | none =>
        dsimp only
        exact ih (s + 1) pos hpos (by omega)

theorem sum_splitSentences_le (text : List Char) :
    ((splitSentences text).map List.length).sum ≤ text.length := by
  unfold splitSentences sentenceRuns
  have h := scanCut_sum_le text (sentenceRunAt text)
    (fun s e he => sentenceRunAt_lt text s e he) (text.length + 1) 0 0
    (Nat.zero_le _) (le_refl 0)
  omega

theorem cutAtRuns_ne_nil (text : List Char) (runs : List (Nat × Nat))
    (pos : Nat) : cutAtRuns text runs pos ≠ [] := by
  cases runs with
  | nil => simp [cutAtRuns]
  | cons r rest => cases r; simp [cutAtRuns]

theorem splitSentences_ne_nil (text : List Char) : splitSentences text ≠ [] :=
  cutAtRuns_ne_nil text (sentenceRuns text) 0

/-! ## Packing a text that fits in one chunk -/

/-- When the total remaining size fits in the budget, the sentence-packing
fold never emits: it just accumulates the sentences into the buffer. -/
theorem saFold_small (cs ov : Int) (fuel : Nat) (md : ChunkMeta) :
    ∀ (rest pre : List (List Char)) (sc : Int),
      ((pre.map List.length).sum : Int) + ((rest.map List.length).sum : Int) ≤ cs →
      saFold cs ov fuel md
          ⟨[], pre, ((pre.map List.length).sum : Int), sc⟩ rest
        = some ⟨[], pre ++ rest, (((pre ++ rest).map List.length).sum : Int), sc⟩ := by
  intro rest
  induction rest with
  | nil =>
    intro pre sc _
    simp [saFold]
  | cons s rs ih =>
    intro pre sc h
    have hsums : ((s :: rs).map List.length).sum = s.length + (rs.map List.length).sum := by
      simp
    rw [hsums, Nat.cast_add] at h
    have hs1 : ¬ ((s.length : Int) > cs) := by omega
    have hs2 : ¬ (((pre.map List.length).sum : Int) + (s.length : Int) > cs ∧
        pre ≠ []) := by
      intro hc
      exact absurd hc.1 (by omega)
    have hstep : saStep cs ov fuel md
        ⟨[], pre, ((pre.map List.length).sum : Int), sc⟩ s
        = some ⟨[], pre ++ [s],
            ((pre.map List.length).sum : Int) + (s.length : Int), sc⟩ := by
      dsimp only [saStep]
      rw [if_neg hs1, if_neg hs2]
    unfold saFold
    rw [hstep]
    dsimp only
    have harg : ((pre.map List.length).sum : Int) + (s.length : Int)
        = (((pre ++ [s]).map List.length).sum : Int) := by
      simp
    have hih : (((pre ++ [s]).map List.length).sum : Int) +
        ((rs.map List.length).sum : Int) ≤ cs := by
      rw [← harg]; omega
    rw [harg, ih (pre ++ [s]) sc hih]
    simp

/-- Sentence-Aware chunking of a text that fits the budget: a single chunk
holding the space-join of the sentence pieces (the regex split drops the
matched whitespace runs, so the content is a whitespace-normalized variant
of the text, not `text.strip()`). -/
theorem sentenceAware_small (cs ov : Int) (fuel : Nat) (text : List Char)
    (md : ChunkMeta) (h : (text.length : Int) ≤ cs) :
    sentenceAwareChunk cs ov fuel text md
      = some [⟨pyJoin [' '] (splitSentences text), 0, 1, 0,
          ((pyJoin [' '] (splitSentences text)).length : Int), md⟩] := by
  have hsum : (((splitSentences text).map List.length).sum : Int) ≤ cs := by
    have := sum_splitSentences_le text
    have hc : (((splitSentences text).map List.length).sum : Int)
        ≤ (text.length : Int) := by exact_mod_cast this
    omega
  have h0 := saFold_small cs ov fuel md (splitSentences text) [] 0
    (by simpa using hsum)
  simp only [List.map_nil, List.sum_nil, Nat.cast_zero, List.nil_append] at h0
  unfold sentenceAwareChunk
  rw [if_neg (splitSentences_ne_nil text), h0]
  dsimp only
  rw [if_pos (splitSentences_ne_nil text)]
  simp [saEmit, restamp]

/-! ## Section-boundary bookkeeping -/

theorem dedupSorted_sublist : ∀ l : List Nat, (dedupSorted l).Sublist l := by
  intro l
  induction l with
  | nil => simp [dedupSorted]
  | cons x rest ih =>
    cases rest with
    | nil => simp [dedupSorted]
    | cons y ys =>
      unfold dedupSorted
      by_cases hxy : x = y
      · rw [if_pos hxy]
        exact (ih).cons x
      · rw [if_neg hxy]
        exact (ih).cons₂ x

theorem sortedDedup_pairwise (l : List Nat) :
    List.Pairwise (· ≤ ·) (sortedDedup l) := by
  have hs : List.Pairwise (· ≤ ·) (List.insertionSort (· ≤ ·) l) :=
    List.sorted_insertionSort (· ≤ ·) l
  exact hs.sublist (dedupSorted_sublist _)

theorem mem_sortedDedup (l : List Nat) (x : Nat) (h : x ∈ sortedDedup l) :
    x ∈ l := by
  have h1 : x ∈ List.insertionSort (· ≤ ·) l :=
    (dedupSorted_sublist _).mem h
  exact (List.mem_insertionSort (· ≤ ·)).mp h1

theorem scanRuns_fst_lt (matchAt : Nat → Option Nat) (n : Nat) :
    ∀ (fuel s : Nat) (r : Nat × Nat), r ∈ scanRuns matchAt n fuel s → r.1 < n := by
  intro fuel
  induction fuel with
  | zero => intro s r hr; exact absurd hr (by simp [scanRuns])
  | succ k ih =>
    intro s r hr
    unfold scanRuns at hr
    by_cases hns : n ≤ s
    · rw [if_pos hns] at hr; exact absurd hr (by simp)
    · rw [if_neg hns] at hr
      cases hma : matchAt s with
      | some e =>
        rw [hma] at hr
        dsimp only at hr
        rcases List.mem_cons.mp hr with h1 | h1
        · rw [h1]; omega
        · exact ih _ r h1
      | none =>
        rw [hma] at hr
        dsimp only at hr
        exact ih _ r hr

theorem mem_allBoundaries_lt (text : List Char) (x : Nat)
    (h : x ∈ allBoundaries text) : x < text.length := by
  unfold allBoundaries at h
  simp only [List.mem_append, List.mem_map] at h
  rcases h with ((⟨r, hr, hrx⟩ | ⟨r, hr, hrx⟩) | ⟨r, hr, hrx⟩) | ⟨r, hr, hrx⟩ <;>
    · have := scanRuns_fst_lt _ _ _ _ r hr
      omega

theorem sectionsGo_sum_le (text : List Char) :
    ∀ (bs : List Nat) (b : Nat),
      List.Pairwise (· ≤ ·) (b :: bs) →
      (∀ x, x ∈ b :: bs → x ≤ text.length) →
      ((sectionsGo text (b :: bs)).map List.length).sum + b ≤ text.length := by
  intro bs
  induction bs with
  | nil =>
    intro b _ hmem
    have hb : b ≤ text.length := hmem b (by simp)
    have hp : (pyStrip (text.drop b)).length ≤ text.length - b := by
      have := pyStrip_length_le (text.drop b)
      rw [List.length_drop] at this
      omega
    unfold sectionsGo
    by_cases hs : pyStrip (text.drop b) ≠ []
    · rw [if_pos hs]; simp only [List.map_cons, List.map_nil, List.sum_cons,
        List.sum_nil]; omega
    · rw [if_neg hs]; simp only [List.map_nil, List.sum_nil]; omega
  | cons b2 rest ih =>
    intro b hpw hmem
    have hb2 : b ≤ b2 := (List.pairwise_cons.mp hpw).1 b2 (by simp)
    have hb2l : b2 ≤ text.length := hmem b2 (by simp)
    have hpiece : (pyStrip ((text.take b2).drop b)).length ≤ b2 - b := by
      have h1 := pyStrip_length_le ((text.take b2).drop b)
      rw [List.length_drop, List.length_take] at h1
      omega
    have hrec := ih b2 (List.pairwise_cons.mp hpw).2
      (fun x hx => hmem x (List.mem_cons_of_mem b hx))
    unfold sectionsGo
    dsimp only
    by_cases hs : pyStrip ((text.take b2).drop b) ≠ []
    · rw [if_pos hs]
      simp only [List.cons_append, List.nil_append, List.map_cons,
        List.sum_cons]
      omega
    · rw [if_neg hs]
      simp only [List.nil_append]
      omega

theorem sum_identifySections_le (text : List Char) :
    ((identifySections text).map List.length).sum ≤ text.length := by
  unfold identifySections
  cases hbs : sortedDedup (allBoundaries text) with
  | nil => simp
  | cons b0 rest =>
    have hpw : List.Pairwise (· ≤ ·) (b0 :: rest) := by
      rw [← hbs]; exact sortedDedup_pairwise _
    have hmem : ∀ x, x ∈ b0 :: rest → x ≤ text.length := by
      intro x hx
      have : x ∈ sortedDedup (allBoundaries text) := by rw [hbs]; exact hx
      exact le_of_lt (mem_allBoundaries_lt text x (mem_sortedDedup _ x this))
    have hgo := sectionsGo_sum_le text rest b0 hpw hmem
    have hb0 : b0 ≤ text.length := hmem b0 (by simp)
    have hpre : (pyStrip (text.take b0)).length ≤ b0 := by
      have := pyStrip_length_le (text.take b0)
      rw [List.length_take] at this
      omega
    dsimp only
    by_cases hb : b0 > 0
    · rw [if_pos hb]
      simp only [List.cons_append, List.nil_append, List.map_cons,
        List.sum_cons]
      omega
    · rw [if_neg hb]
      simp only [List.nil_append]
      omega

/-- The section-packing fold never emits when the total size fits. -/
theorem secFold_small (cs ov : Int) (fuel : Nat) (md : ChunkMeta) :
    ∀ (rest pre : List (List Char)) (sc : Int),
      ((pre.map List.length).sum : Int) + ((rest.map List.length).sum : Int) ≤ cs →
      secFold cs ov fuel md
          ⟨[], pre, ((pre.map List.length).sum : Int), sc⟩ rest
        = some ⟨[], pre ++ rest, (((pre ++ rest).map List.length).sum : Int), sc⟩ := by
  intro rest
  induction rest with
  | nil =>
    intro pre sc _
    simp [secFold]
  | cons s rs ih =>
    intro pre sc h
    have hsums : ((s :: rs).map List.length).sum = s.length + (rs.map List.length).sum := by
      simp
    rw [hsums, Nat.cast_add] at h
    have hs1 : ¬ ((s.length : Int) > cs) := by omega
    have hs2 : ¬ (((pre.map List.length).sum : Int) + (s.length : Int) > cs ∧
        pre ≠ []) := by
      intro hc
      exact absurd hc.1 (by omega)
    have hstep : secStep cs ov fuel md
        ⟨[], pre, ((pre.map List.length).sum : Int), sc⟩ s
        = some ⟨[], pre ++ [s],
            ((pre.map List.length).sum : Int) + (s.length : Int), sc⟩ := by
      dsimp only [secStep]
      rw [if_neg hs1, if_neg hs2]
    unfold secFold
    rw [hstep]
    dsimp only
    have harg : ((pre.map List.length).sum : Int) + (s.length : Int)
        = (((pre ++ [s]).map List.length).sum : Int) := by
      simp
    have hih : (((pre ++ [s]).map List.length).sum : Int) +
        ((rs.map List.length).sum : Int) ≤ cs := by
      rw [← harg]; omega
    rw [harg, ih (pre ++ [s]) sc hih]
    simp

/-- Semantic chunking of a text that fits the budget yields exactly one
chunk with `index = 0` and `total_chunks = 1` (its content is the
blank-line join of the detected sections, or the Sentence-Aware single
chunk in the empty-sections delegation corner). -/
theorem semantic_small (cs ov : Int) (fuel : Nat) (text : List Char)
    (md : ChunkMeta) (h : (text.length : Int) ≤ cs) :
    ∃ c : Chunk, semanticChunk cs ov fuel text md = some [c] ∧
      c.index = 0 ∧ c.total_chunks = 1 := by
  unfold semanticChunk
  cases hsec : identifySections text with
  | nil =>
    rw [if_pos rfl]
    exact ⟨_, sentenceAware_small cs ov fuel text md h, rfl, rfl⟩
  | cons s ss =>
    rw [if_neg (by simp)]
    have hsum : (((s :: ss).map List.length).sum : Int) ≤ cs := by
      have h1 := sum_identifySections_le text
      rw [hsec] at h1
      have h2 : (((s :: ss).map List.length).sum : Int) ≤ (text.length : Int) := by
        exact_mod_cast h1
      omega
    have hfold := secFold_small cs ov fuel md (s :: ss) [] 0
      (by simpa using hsum)
    simp only [List.map_nil, List.sum_nil, Nat.cast_zero, List.nil_append] at hfold
    rw [hfold]
    dsimp only
    rw [if_pos (by simp : (s :: ss : List (List Char)) ≠ [])]
    refine ⟨⟨pyJoin ['\n', '\n'] (s :: ss), 0, 1, 0,
      ((pyJoin ['\n', '\n'] (s :: ss)).length : Int), md⟩, ?_, rfl, rfl⟩
    simp [secEmit, restamp]

theorem pySlice_all (text : List Char) :
    pySlice text 0 (text.length : Int) = text := by
  unfold pySlice pyIdx
  rw [if_neg (by omega : ¬ ((text.length : Int) < 0)),
    if_neg (by omega : ¬ ((0 : Int) < 0)),
    (by omega : ((0 : Int) ⊓ (text.length : Int)) = 0),
    (by omega : ((text.length : Int) ⊓ (text.length : Int)) = (text.length : Int))]
  simp

/-- Sliding-window chunking of a text no longer than both the window and the
stride: a single stripped window (when the stripped text is non-empty). -/
theorem slidingWindow_small (cfg : SlidingWindowConfig) (fuel : Nat)
    (text : List Char) (md : ChunkMeta)
    (h1 : (text.length : Int) ≤ cfg.chunk_size)
    (h2 : (text.length : Int) ≤ cfg.stride)
    (hstrip : pyStrip text ≠ [])
    (hf : 2 ≤ fuel) :
    slidingWindowChunk cfg fuel text md
      = some [⟨pyStrip text, 0, 1, 0, (text.length : Int), md⟩] := by
  have htext : (0 : Int) < (text.length : Int) := by
    rcases text with _ | ⟨a, t⟩
    · exact absurd pyStrip_nil hstrip
    · simp only [List.length_cons]
      omega
  obtain ⟨f, rfl⟩ : ∃ f, fuel = f + 2 := ⟨fuel - 2, by omega⟩
  unfold slidingWindowChunk
  unfold slidingLoop
  rw [if_pos htext]
  dsimp only
  have he : min ((0 : Int) + cfg.chunk_size) (text.length : Int)
      = (text.length : Int) := by omega
  rw [he, pySlice_all]
  simp only [appendChunk, if_pos hstrip]
  rw [if_neg (show ¬ (cfg.stride = 0) by omega)]
  unfold slidingLoop
  rw [if_neg (show ¬ ((0 : Int) + cfg.stride < (text.length : Int)) by omega)]
  simp [restamp]

/-! ## C2 — single-segment short-circuit -/

/-- C2 counterexample: the claim fails in two independent ways on concrete
inputs with `len(text) ≤ chunk_size`:
  * `fixed_size` (size 4000, overlap 200) on `" a "` returns the text
    unstripped, not `text.strip()`; `sentence_aware` (size 10) on
    `"Aa.  Bb"` returns the whitespace-normalized join `"Aa. Bb"`, and
    `semantic` on `"x\n# H"` returns the blank-line join `"x\n\n# H"` —
    none of which equal `text.strip()`;
  * `sliding_window` with the valid configuration size 4, overlap 2
    (stride 2) on `"abcd"` returns two segments, not one. -/
theorem c2_counterexample :
    fixedSizeChunk 4000 200 1 ((" a ").data) none
        = some [⟨(" a ").data, 0, 1, 0, 3, none⟩]
    ∧ (" a ").data ≠ pyStrip ((" a ").data)
    ∧ sentenceAwareChunk 10 2 9 (("Aa.  Bb").data) none
        = some [⟨("Aa. Bb").data, 0, 1, 0, 6, none⟩]
    ∧ ("Aa. Bb").data ≠ pyStrip (("Aa.  Bb").data)
    ∧ semanticChunk 10 2 9 (("x\n# H").data) none
        = some [⟨("x\n\n# H").data, 0, 1, 0, 6, none⟩]
    ∧ ("x\n\n# H").data ≠ pyStrip (("x\n# H").data)
    ∧ slidingWindowChunk (slidingWindowInit 4 2 none) 9 (("abcd").data) none
        = some [⟨("abcd").data, 0, 2, 0, 4, none⟩,
                ⟨("cd").data, 1, 2, 2, 4, none⟩] := by
  refine ⟨by decide, by decide, by decide, by decide, by decide, by decide,
    by decide⟩

/-- C2 (amended): for every text with `len(text) ≤ chunk_size`,
`fixed_size`, `sentence_aware` and `semantic` each return exactly one
segment with `index = 0` and `total_count = 1`; however the content is the
raw text for `fixed_size` (unstripped) and a join-normalized variant for the
other two, and `sliding_window` short-circuits to one stripped segment only
under the additional conditions `len(text) ≤ stride` and non-whitespace
text. -/
theorem c2_short_circuit_amended (cs ov : Int) (fuel : Nat) (text : List Char)
    (md : ChunkMeta) (cfg : SlidingWindowConfig)
    (h : (text.length : Int) ≤ cs) :
    fixedSizeChunk cs ov fuel text md
      = some [⟨text, 0, 1, 0, (text.length : Int), md⟩]
    ∧ sentenceAwareChunk cs ov fuel text md
      = some [⟨pyJoin [' '] (splitSentences text), 0, 1, 0,
          ((pyJoin [' '] (splitSentences text)).length : Int), md⟩]
    ∧ (∃ c : Chunk, semanticChunk cs ov fuel text md = some [c] ∧
        c.index = 0 ∧ c.total_chunks = 1)
    ∧ ((text.length : Int) ≤ cfg.chunk_size → (text.length : Int) ≤ cfg.stride →
        pyStrip text ≠ [] → 2 ≤ fuel →
        slidingWindowChunk cfg fuel text md
          = some [⟨pyStrip text, 0, 1, 0, (text.length : Int), md⟩]) := by
  refine ⟨?_, sentenceAware_small cs ov fuel text md h,
    semantic_small cs ov fuel text md h,
    fun h1 h2 h3 h4 => slidingWindow_small cfg fuel text md h1 h2 h3 h4⟩
  unfold fixedSizeChunk
  rw [if_pos h]

/-- C2 witness: the amended short-circuit at the concrete text `"Hi"` with
`chunk_size = 10, chunk_overlap = 2` and a sliding-window stride of 8. -/
theorem c2_short_circuit_amended_witness :
    fixedSizeChunk 10 2 2 (("Hi").data) none
      = some [⟨("Hi").data, 0, 1, 0, 2, none⟩]
    ∧ sentenceAwareChunk 10 2 2 (("Hi").data) none
      = some [⟨pyJoin [' '] (splitSentences (("Hi").data)), 0, 1, 0,
          ((pyJoin [' '] (splitSentences (("Hi").data))).length : Int), none⟩]
    ∧ (∃ c : Chunk, semanticChunk 10 2 2 (("Hi").data) none = some [c] ∧
        c.index = 0 ∧ c.total_chunks = 1)
    ∧ (((("Hi").data.length : Int)) ≤ 10 → ((("Hi").data.length : Int)) ≤ 8 →
        pyStrip (("Hi").data) ≠ [] → 2 ≤ 2 →
        slidingWindowChunk ⟨10, 2, 8⟩ 2 (("Hi").data) none
          = some [⟨pyStrip (("Hi").data), 0, 1, 0, ((("Hi").data.length : Int)), none⟩]) :=
  c2_short_circuit_amended 10 2 2 (("Hi").data) none ⟨10, 2, 8⟩ (by decide)

/-! ## Index-contiguity invariants -/

theorem restamp_map_index (l : List Chunk) :
    (restamp l).map Chunk.index = l.map Chunk.index := by
  simp [restamp]

theorem restamp_totals (l : List Chunk) :
    ∀ c ∈ restamp l, c.total_chunks = l.length := by
  intro c hc
  simp only [restamp, List.mem_map] at hc
  obtain ⟨a, _, rfl⟩ := hc
  rfl

theorem map_index_concat (acc : List Chunk) (c : Chunk)
    (hc : c.index = acc.length)
    (hinv : acc.map Chunk.index = List.range' 0 acc.length) :
    (acc ++ [c]).map Chunk.index = List.range' 0 (acc ++ [c]).length := by
  rw [List.map_append, hinv, List.length_append]
  simp only [List.map_cons, List.map_nil, hc, List.length_cons, List.length_nil]
  have h1 := List.range'_append_1 0 acc.length 1
  simp only [List.range'_one, Nat.zero_add] at h1
  rw [h1, Nat.add_comm]

theorem appendChunk_index (md : ChunkMeta) (start e : Int) (c : List Char)
    (idx : Nat) (acc : List Chunk)
    (hinv : acc.map Chunk.index = List.range' 0 acc.length)
    (hidx : idx = acc.length) :
    (appendChunk md start e c idx acc).2.map Chunk.index
      = List.range' 0 (appendChunk md start e c idx acc).2.length
    ∧ (appendChunk md start e c idx acc).1
      = (appendChunk md start e c idx acc).2.length := by
  unfold appendChunk
  split
  · refine ⟨map_index_concat acc _ hidx hinv, ?_⟩
    simp [hidx]
  · exact ⟨hinv, by simp [hidx]⟩

theorem reindexFrom_length (k : Nat) (l : List Chunk) :
    (reindexFrom k l).length = l.length := by
  induction l generalizing k with
  | nil => rfl
  | cons c rest ih => simp [reindexFrom, ih]

theorem reindexFrom_map_index (k : Nat) (l : List Chunk) :
    (reindexFrom k l).map Chunk.index = List.range' k l.length := by
  induction l generalizing k with
  | nil => rfl
  | cons c rest ih =>
    simp only [reindexFrom, List.map_cons, ih, List.length_cons]
    rw [List.range']

theorem splice_index (acc scs : List Chunk)
    (hinv : acc.map Chunk.index = List.range' 0 acc.length) :
    (acc ++ reindexFrom acc.length scs).map Chunk.index
      = List.range' 0 (acc ++ reindexFrom acc.length scs).length := by
  rw [List.map_append, hinv, reindexFrom_map_index, List.length_append,
    reindexFrom_length]
  have := List.range'_append_1 0 acc.length scs.length
  simpa [Nat.add_comm] using this

theorem saEmit_length (md : ChunkMeta) (sep : List Char) (st : SAState) :
    (saEmit md sep st).length = st.chunks.length + 1 := by
  simp [saEmit]

theorem saEmit_index (md : ChunkMeta) (sep : List Char) (st : SAState)
    (hinv : st.chunks.map Chunk.index = List.range' 0 st.chunks.length) :
    (saEmit md sep st).map Chunk.index
      = List.range' 0 (saEmit md sep st).length :=
  map_index_concat st.chunks _ rfl hinv

theorem secEmit_length (md : ChunkMeta) (st : SecState) :
    (secEmit md st).length = st.chunks.length + 1 := by
  simp [secEmit]

theorem secEmit_index (md : ChunkMeta) (st : SecState)
    (hinv : st.chunks.map Chunk.index = List.range' 0 st.chunks.length) :
    (secEmit md st).map Chunk.index
      = List.range' 0 (secEmit md st).length :=
  map_index_concat st.chunks _ rfl hinv

theorem fixedSizeLoop_index (cs ov : Int) (text : List Char) (md : ChunkMeta) :
    ∀ (fuel : Nat) (start : Int) (idx : Nat) (acc out : List Chunk),
      acc.map Chunk.index = List.range' 0 acc.length → idx = acc.length →
      fixedSizeLoop cs ov text md fuel start idx acc = some out →
      out.map Chunk.index = List.range' 0 out.length := by
  intro fuel
  induction fuel with
  | zero =>
    intro start idx acc out _ _ h
    exact absurd h (by simp [fixedSizeLoop])
  | succ n ih =>
    intro start idx acc out hinv hidx h
    unfold fixedSizeLoop at h
    by_cases h0 : start < (text.length : Int)
    · rw [if_pos h0] at h
      dsimp only at h
      have hap := appendChunk_index md start (windowEnd cs text start)
        (pyStrip (pySlice text start (windowEnd cs text start))) idx acc hinv hidx
      by_cases h1 : windowEnd cs text start < (text.length : Int)
      · rw [if_pos h1] at h
        exact ih _ _ _ out hap.1 hap.2 h
      · rw [if_neg h1] at h
        rw [← Option.some.inj h]
        exact hap.1
    · rw [if_neg h0] at h
      rw [← Option.some.inj h]
      exact hinv

theorem slidingLoop_index (cs stride : Int) (text : List Char) (md : ChunkMeta) :
    ∀ (fuel : Nat) (start : Int) (idx : Nat) (acc out : List Chunk),
      acc.map Chunk.index = List.range' 0 acc.length → idx = acc.length →
      slidingLoop cs stride text md fuel start idx acc = some out →
      out.map Chunk.index = List.range' 0 out.length := by
  intro fuel
  induction fuel with
  | zero =>
    intro start idx acc out _ _ h
    exact absurd h (by simp [slidingLoop])
  | succ n ih =>
    intro start idx acc out hinv hidx h
    unfold slidingLoop at h
    by_cases h0 : start < (text.length : Int)
    · rw [if_pos h0] at h
      dsimp only at h
      have hap := appendChunk_index md start (min (start + cs) (text.length : Int))
        (pyStrip (pySlice text start (min (start + cs) (text.length : Int))))
        idx acc hinv hidx
      by_cases h1 : stride = 0
      · rw [if_pos h1] at h
        rw [← Option.some.inj h]
        exact hap.1
      · rw [if_neg h1] at h
        exact ih _ _ _ out hap.1 hap.2 h
    · rw [if_neg h0] at h
      rw [← Option.some.inj h]
      exact hinv

theorem saStep_index (cs ov : Int) (fuel : Nat) (md : ChunkMeta)
    (st : SAState) (s : List Char) (st' : SAState)
    (hinv : st.chunks.map Chunk.index = List.range' 0 st.chunks.length)
    (h : saStep cs ov fuel md st s = some st') :
    st'.chunks.map Chunk.index = List.range' 0 st'.chunks.length := by
  unfold saStep at h
  by_cases h1 : (s.length : Int) > cs
  · rw [if_pos h1] at h
    dsimp only at h
    cases hfc : fixedSizeChunk cs ov fuel s md with
    | none => rw [hfc] at h; exact absurd h (by simp)
    | some scs =>
      rw [hfc] at h
      dsimp only at h
      rw [← Option.some.inj h]
      by_cases h2 : st.cur ≠ []
      · simp only [if_pos h2]
        exact splice_index _ scs (saEmit_index md [' '] st hinv)
      · simp only [if_neg h2]
        exact splice_index _ scs hinv
  · rw [if_neg h1] at h
    dsimp only at h
    rw [← Option.some.inj h]
    by_cases h2 : st.size + (s.length : Int) > cs ∧ st.cur ≠ []
    · simp only [if_pos h2]
      exact saEmit_index md [' '] st hinv
    · simp only [if_neg h2]
      exact hinv

theorem saFold_index (cs ov : Int) (fuel : Nat) (md : ChunkMeta) :
    ∀ (sentences : List (List Char)) (st st' : SAState),
      st.chunks.map Chunk.index = List.range' 0 st.chunks.length →
      saFold cs ov fuel md st sentences = some st' →
      st'.chunks.map Chunk.index = List.range' 0 st'.chunks.length := by
  intro sentences
  induction sentences with
  | nil =>
    intro st st' hinv h
    rw [← Option.some.inj h]
    exact hinv
  | cons s rest ih =>
    intro st st' hinv h
    unfold saFold at h
    cases hs : saStep cs ov fuel md st s with
    | none => rw [hs] at h; exact absurd h (by simp)
    | some st1 =>
      rw [hs] at h
      dsimp only at h
      exact ih st1 st' (saStep_index cs ov fuel md st s st1 hinv hs) h

theorem secStep_index (cs ov : Int) (fuel : Nat) (md : ChunkMeta)
    (st : SecState) (s : List Char) (st' : SecState)
    (hinv : st.chunks.map Chunk.index = List.range' 0 st.chunks.length)
    (h : secStep cs ov fuel md st s = some st') :
    st'.chunks.map Chunk.index = List.range' 0 st'.chunks.length := by
  unfold secStep at h
  by_cases h1 : (s.length : Int) > cs
  · rw [if_pos h1] at h
    dsimp only at h
    cases hfc : sentenceAwareChunk cs ov fuel s md with
    | none => rw [hfc] at h; exact absurd h (by simp)
    | some scs =>
      rw [hfc] at h
      dsimp only at h
      rw [← Option.some.inj h]
      by_cases h2 : st.cur ≠ []
      · simp only [if_pos h2]
        exact splice_index _ scs (secEmit_index md st hinv)
      · simp only [if_neg h2]
        exact splice_index _ scs hinv
  · rw [if_neg h1] at h
    dsimp only at h
    rw [← Option.some.inj h]
    by_cases h2 : st.size + (s.length : Int) > cs ∧ st.cur ≠ []
    · simp only [if_pos h2]
      exact secEmit_index md st hinv
    · simp only [if_neg h2]
      exact hinv

theorem secFold_index (cs ov : Int) (fuel : Nat) (md : ChunkMeta) :
    ∀ (sections : List (List Char)) (st st' : SecState),
      st.chunks.map Chunk.index = List.range' 0 st.chunks.length →
      secFold cs ov fuel md st sections = some st' →
      st'.chunks.map Chunk.index = List.range' 0 st'.chunks.length := by
  intro sections
  induction sections with
  | nil =>
    intro st st' hinv h
    rw [← Option.some.inj h]
    exact hinv
  | cons s rest ih =>
    intro st st' hinv h
    unfold secFold at h
    cases hs : secStep cs ov fuel md st s with
    | none => rw [hs] at h; exact absurd h (by simp)
    | some st1 =>
      rw [hs] at h
      dsimp only at h
      exact ih st1 st' (secStep_index cs ov fuel md st s st1 hinv hs) h

/-- Fixed-Size chunking: whenever the loop returns, indices are
`0..n-1` in order and every chunk carries `total_chunks = n`. -/
theorem fixedSize_contiguity (cs ov : Int) (fuel : Nat) (text : List Char)
    (md : ChunkMeta) (out : List Chunk)
    (h : fixedSizeChunk cs ov fuel text md = some out) :
    out.map Chunk.index = List.range out.length
    ∧ ∀ c ∈ out, c.total_chunks = out.length := by
  unfold fixedSizeChunk at h
  by_cases h0 : (text.length : Int) ≤ cs
  · rw [if_pos h0] at h
    rw [← Option.some.inj h]
    refine ⟨by simp [List.range_eq_range', List.range'_one], ?_⟩
    intro c hc
    rw [List.mem_singleton] at hc
    rw [hc]
    rfl
  · rw [if_neg h0] at h
    cases hl : fixedSizeLoop cs ov text md fuel 0 0 [] with
    | none => rw [hl] at h; exact absurd h (by simp)
    | some raw =>
      rw [hl] at h
      have hout : out = restamp raw := (Option.some.inj h).symm
      have hidx := fixedSizeLoop_index cs ov text md fuel 0 0 [] raw rfl rfl hl
      subst hout
      refine ⟨?_, ?_⟩
      · rw [restamp_map_index, restamp_length, List.range_eq_range']
        exact hidx
      · intro c hc
        rw [restamp_length]
        exact restamp_totals raw c hc

/-- Sliding-Window chunking: same contiguity invariant. -/
theorem slidingWindow_contiguity (cfg : SlidingWindowConfig) (fuel : Nat)
    (text : List Char) (md : ChunkMeta) (out : List Chunk)
    (h : slidingWindowChunk cfg fuel text md = some out) :
    out.map Chunk.index = List.range out.length
    ∧ ∀ c ∈ out, c.total_chunks = out.length := by
  unfold slidingWindowChunk at h
  cases hl : slidingLoop cfg.chunk_size cfg.stride text md fuel 0 0 [] with
  | none => rw [hl] at h; exact absurd h (by simp)
  | some raw =>
    rw [hl] at h
    have hout : out = restamp raw := (Option.some.inj h).symm
    have hidx := slidingLoop_index cfg.chunk_size cfg.stride text md fuel 0 0 []
      raw rfl rfl hl
    subst hout
    refine ⟨?_, ?_⟩
    · rw [restamp_map_index, restamp_length, List.range_eq_range']
      exact hidx
    · intro c hc
      rw [restamp_length]
      exact restamp_totals raw c hc

/-- Sentence-Aware chunking: same contiguity invariant. -/
theorem sentenceAware_contiguity (cs ov : Int) (fuel : Nat) (text : List Char)
    (md : ChunkMeta) (out : List Chunk)
    (h : sentenceAwareChunk cs ov fuel text md = some out) :
    out.map Chunk.index = List.range out.length
    ∧ ∀ c ∈ out, c.total_chunks = out.length := by
  unfold sentenceAwareChunk at h
  by_cases hsen : splitSentences text = []
  · rw [if_pos hsen] at h
    rw [← Option.some.inj h]
    exact ⟨rfl, by intro c hc; exact absurd hc (by simp)⟩
  · rw [if_neg hsen] at h
    cases hf : saFold cs ov fuel md ⟨[], [], 0, 0⟩ (splitSentences text) with
    | none => rw [hf] at h; exact absurd h (by simp)
    | some st =>
      rw [hf] at h
      dsimp only at h
      have hstI := saFold_index cs ov fuel md (splitSentences text)
        ⟨[], [], 0, 0⟩ st rfl hf
      have hfinal : (if st.cur ≠ [] then saEmit md [' '] st else st.chunks).map
          Chunk.index = List.range' 0
            (if st.cur ≠ [] then saEmit md [' '] st else st.chunks).length := by
        by_cases hcur : st.cur ≠ []
        · simp only [if_pos hcur]
          exact saEmit_index md [' '] st hstI
        · simp only [if_neg hcur]
          exact hstI
      have hout : out = restamp (if st.cur ≠ [] then saEmit md [' '] st
          else st.chunks) := (Option.some.inj h).symm
      subst hout
      refine ⟨?_, ?_⟩
      · rw [restamp_map_index, restamp_length, List.range_eq_range']
        exact hfinal
      · intro c hc
        rw [restamp_length]
        exact restamp_totals _ c hc

/-- Semantic chunking: same contiguity invariant. -/
theorem semantic_contiguity (cs ov : Int) (fuel : Nat) (text : List Char)
    (md : ChunkMeta) (out : List Chunk)
    (h : semanticChunk cs ov fuel text md = some out) :
    out.map Chunk.index = List.range out.length
    ∧ ∀ c ∈ out, c.total_chunks = out.length := by
  unfold semanticChunk at h
  by_cases hsec : identifySections text = []
  · rw [if_pos hsec] at h
    exact sentenceAware_contiguity cs ov fuel text md out h
  · rw [if_neg hsec] at h
    cases hf : secFold cs ov fuel md ⟨[], [], 0, 0⟩ (identifySections text) with
    | none => rw [hf] at h; exact absurd h (by simp)
    | some st =>
      rw [hf] at h
      dsimp only at h
      have hstI := secFold_index cs ov fuel md (identifySections text)
        ⟨[], [], 0, 0⟩ st rfl hf
      have hfinal : (if st.cur ≠ [] then secEmit md st else st.chunks).map
          Chunk.index = List.range' 0
            (if st.cur ≠ [] then secEmit md st else st.chunks).length := by
        by_cases hcur : st.cur ≠ []
        · simp only [if_pos hcur]
          exact secEmit_index md st hstI
        · simp only [if_neg hcur]
          exact hstI
      by_cases hstamp : restamp (if st.cur ≠ [] then secEmit md st
          else st.chunks) = []
      · rw [if_pos hstamp] at h
        rw [← Option.some.inj h]
        refine ⟨by simp [List.range_eq_range', List.range'_one], ?_⟩
        intro c hc
        rw [List.mem_singleton] at hc
        rw [hc]
        rfl
      · rw [if_neg hstamp] at h
        have hout : out = restamp (if st.cur ≠ [] then secEmit md st
            else st.chunks) := (Option.some.inj h).symm
        subst hout
        refine ⟨?_, ?_⟩
        · rw [restamp_map_index, restamp_length, List.range_eq_range']
          exact hfinal
        · intro c hc
          rw [restamp_length]
          exact restamp_totals _ c hc

/-! ## C7 — index contiguity / total stamping / offset order -/

/-- C7 counterexample: the start-offset monotonicity conjunct fails.  With
`chunk_size = 10, chunk_overlap = 2`, Sentence-Aware chunking of
`"Aa. Bb. CCCCCCCCCCCCCCC. Dd."` produces four chunks whose indices are
`0,1,2,3` and totals all `4`, but whose `start_char` sequence is
`0, 0, 8, 7`: the chunks spliced in by the over-long-sentence Fixed-Size
fallback carry offsets relative to the sentence, not the text, so the
buffered chunk emitted afterwards (`"Dd."` at `7`) sits below its
predecessor (`8`). -/
theorem c7_counterexample :
    sentenceAwareChunk 10 2 50 (("Aa. Bb. CCCCCCCCCCCCCCC. Dd.").data) none
      = some [⟨("Aa. Bb.").data, 0, 4, 0, 7, none⟩,
              ⟨("CCCCCCCCCC").data, 1, 4, 0, 10, none⟩,
              ⟨("CCCCCCC.").data, 2, 4, 8, 16, none⟩,
              ⟨("Dd.").data, 3, 4, 7, 10, none⟩]
    ∧ ¬ List.Chain' (fun a b => a ≤ b)
        (([⟨("Aa. Bb.").data, 0, 4, 0, 7, none⟩,
           ⟨("CCCCCCCCCC").data, 1, 4, 0, 10, none⟩,
           ⟨("CCCCCCC.").data, 2, 4, 8, 16, none⟩,
           ⟨("Dd.").data, 3, 4, 7, 10, none⟩] : List Chunk).map
          Chunk.start_char) := by
  refine ⟨by decide, ?_⟩
  intro hch
  simp only [List.map_cons, List.map_nil, List.chain'_cons] at hch
  omega

/-- C7 (amended): for every chunking result of any of the four strategies,
the `index` values are exactly `0..n-1` in production order and every
segment carries `total_count = n`; the non-decreasing-`start_offset`
conjunct of the original claim is dropped (refuted by the counterexample). -/
theorem c7_index_contiguity_amended
    (cs ov : Int) (cfg : SlidingWindowConfig) (fuel : Nat) (text : List Char)
    (md : ChunkMeta) (o1 o2 o3 o4 : List Chunk)
    (h1 : fixedSizeChunk cs ov fuel text md = some o1)
    (h2 : sentenceAwareChunk cs ov fuel text md = some o2)
    (h3 : semanticChunk cs ov fuel text md = some o3)
    (h4 : slidingWindowChunk cfg fuel text md = some o4) :
    (o1.map Chunk.index = List.range o1.length
      ∧ ∀ c ∈ o1, c.total_chunks = o1.length)
    ∧ (o2.map Chunk.index = List.range o2.length
      ∧ ∀ c ∈ o2, c.total_chunks = o2.length)
    ∧ (o3.map Chunk.index = List.range o3.length
      ∧ ∀ c ∈ o3, c.total_chunks = o3.length)
    ∧ (o4.map Chunk.index = List.range o4.length
      ∧ ∀ c ∈ o4, c.total_chunks = o4.length) :=
  ⟨fixedSize_contiguity cs ov fuel text md o1 h1,
   sentenceAware_contiguity cs ov fuel text md o2 h2,
   semantic_contiguity cs ov fuel text md o3 h3,
   slidingWindow_contiguity cfg fuel text md o4 h4⟩

/-- C7 witness: the amended invariant at the concrete text `"Hi"` for all
four strategies. -/
theorem c7_index_contiguity_amended_witness :
    (([0] = List.range 1
      ∧ ∀ c ∈ ([⟨("Hi").data, 0, 1, 0, 2, none⟩] : List Chunk),
          c.total_chunks = 1))
    ∧ (([0] = List.range 1
      ∧ ∀ c ∈ ([⟨("Hi").data, 0, 1, 0, 2, none⟩] : List Chunk),
          c.total_chunks = 1))
    ∧ (([0] = List.range 1
      ∧ ∀ c ∈ ([⟨("Hi").data, 0, 1, 0, 2, none⟩] : List Chunk),
          c.total_chunks = 1))
    ∧ (([0] = List.range 1
      ∧ ∀ c ∈ ([⟨("Hi").data, 0, 1, 0, 2, none⟩] : List Chunk),
          c.total_chunks = 1)) :=
  c7_index_contiguity_amended 10 2 ⟨4, 2, 2⟩ 50 (("Hi").data) none
    [⟨("Hi").data, 0, 1, 0, 2, none⟩] [⟨("Hi").data, 0, 1, 0, 2, none⟩]
    [⟨("Hi").data, 0, 1, 0, 2, none⟩] [⟨("Hi").data, 0, 1, 0, 2, none⟩]
    (by decide) (by decide) (by decide) (by decide)

/-! ## C5 — Semantic delegation to Sentence-Aware -/

theorem reindexFrom_eq_self :
    ∀ (l : List Chunk) (k : Nat),
      l.map Chunk.index = List.range' k l.length → reindexFrom k l = l := by
  intro l
  induction l with
  | nil => intro k _; rfl
  | cons c rest ih =>
    intro k h
    simp only [List.map_cons, List.length_cons, List.range'] at h
    obtain ⟨h1, h2⟩ := List.cons.inj h
    unfold reindexFrom
    rw [ih (k + 1) h2, ← h1]

theorem map_total_eq_self :
    ∀ (l : List Chunk) (n : Nat), (∀ c ∈ l, c.total_chunks = n) →
      l.map (fun c => { c with total_chunks := n }) = l := by
  intro l
  induction l with
  | nil => intro n _; rfl
  | cons c rest ih =>
    intro n h
    simp only [List.map_cons]
    rw [ih n (fun d hd => h d (List.mem_cons_of_mem c hd)),
      ← h c (List.mem_cons_self c rest)]

theorem restamp_eq_self (l : List Chunk)
    (h : ∀ c ∈ l, c.total_chunks = l.length) : restamp l = l :=
  map_total_eq_self l l.length h

/-- C5 counterexample: `"Aa.  Bb"` (double interior space) matches none of
the structural boundary patterns, yet Semantic chunking does not return the
Sentence-Aware sequence: the no-boundary path packs the whole text as the
single section (preserving the two spaces), while Sentence-Aware re-joins
the split sentences with a single space. -/
theorem c5_counterexample :
    sortedDedup (allBoundaries (("Aa.  Bb").data)) = []
    ∧ semanticChunk 10 2 9 (("Aa.  Bb").data) none
        = some [⟨("Aa.  Bb").data, 0, 1, 0, 7, none⟩]
    ∧ sentenceAwareChunk 10 2 9 (("Aa.  Bb").data) none
        = some [⟨("Aa. Bb").data, 0, 1, 0, 6, none⟩]
    ∧ semanticChunk 10 2 9 (("Aa.  Bb").data) none
        ≠ sentenceAwareChunk 10 2 9 (("Aa.  Bb").data) none := by
  refine ⟨by decide, by decide, by decide, by decide⟩

/-- C5 (amended): when no structural boundary pattern matches,
`_identify_sections` yields the whole text as the single section (it never
returns the empty list in this case, so the literal delegation branch is
unreachable).  For `len(text) > chunk_size` that single oversized section is
split wholesale by Sentence-Aware and re-spliced without change, so the two
strategies agree whenever Sentence-Aware produces at least one segment; if
Sentence-Aware produces none (whitespace-only oversized text), Semantic
returns the single whole-text segment instead.  (For `len(text) ≤ chunk_size`
the outputs may differ — see the counterexample.) -/
theorem c5_semantic_delegation (cs ov : Int) (fuel : Nat) (text : List Char)
    (md : ChunkMeta) (l : List Chunk)
    (hb : sortedDedup (allBoundaries text) = [])
    (hlen : (text.length : Int) > cs)
    (hsa : sentenceAwareChunk cs ov fuel text md = some l) :
    (l ≠ [] → semanticChunk cs ov fuel text md = some l)
    ∧ (l = [] → semanticChunk cs ov fuel text md
        = some [⟨text, 0, 1, 0, (text.length : Int), md⟩]) := by
  have hsec : identifySections text = [text] := by
    unfold identifySections
    rw [hb]
  have hstep : secStep cs ov fuel md ⟨[], [], 0, 0⟩ text
      = some ⟨reindexFrom 0 l, [], 0, 0⟩ := by
    dsimp only [secStep]
    rw [if_pos hlen]
    rw [if_neg (show ¬ (([] : List (List Char)) ≠ []) by simp), hsa]
    dsimp only
    rw [List.nil_append]
    rfl
  have hfold : secFold cs ov fuel md ⟨[], [], 0, 0⟩ [text]
      = some ⟨reindexFrom 0 l, [], 0, 0⟩ := by
    unfold secFold
    rw [hstep]
    rfl
  unfold semanticChunk
  rw [hsec]
  rw [if_neg (show ¬ (([text] : List (List Char)) = []) by simp)]
  rw [hfold]
  dsimp only
  rw [if_neg (show ¬ (([] : List (List Char)) ≠ []) by simp)]
  have hcont := sentenceAware_contiguity cs ov fuel text md l hsa
  have hre : reindexFrom 0 l = l := by
    apply reindexFrom_eq_self l 0
    rw [← List.range_eq_range']
    exact hcont.1
  rw [hre, restamp_eq_self l hcont.2]
  constructor
  · intro hne
    rw [if_neg hne]
  · intro hnil
    rw [if_pos hnil]

/-- C5 witness: thirty `'a'`s with `chunk_size = 10, chunk_overlap = 2` —
no boundary pattern matches, the text exceeds the budget, Sentence-Aware
yields four fallback chunks, and Semantic returns exactly the same four. -/
theorem c5_semantic_delegation_witness :
    (([⟨List.replicate 10 ('a'), 0, 4, 0, 10, none⟩,
       ⟨List.replicate 10 ('a'), 1, 4, 8, 18, none⟩,
       ⟨List.replicate 10 ('a'), 2, 4, 16, 26, none⟩,
       ⟨List.replicate 6 ('a'), 3, 4, 24, 30, none⟩] : List Chunk) ≠ [] →
      semanticChunk 10 2 50 (List.replicate 30 ('a')) none
        = some [⟨List.replicate 10 ('a'), 0, 4, 0, 10, none⟩,
                ⟨List.replicate 10 ('a'), 1, 4, 8, 18, none⟩,
                ⟨List.replicate 10 ('a'), 2, 4, 16, 26, none⟩,
                ⟨List.replicate 6 ('a'), 3, 4, 24, 30, none⟩])
    ∧ (([⟨List.replicate 10 ('a'), 0, 4, 0, 10, none⟩,
         ⟨List.replicate 10 ('a'), 1, 4, 8, 18, none⟩,
         ⟨List.replicate 10 ('a'), 2, 4, 16, 26, none⟩,
         ⟨List.replicate 6 ('a'), 3, 4, 24, 30, none⟩] : List Chunk) = [] →
      semanticChunk 10 2 50 (List.replicate 30 ('a')) none
        = some [⟨List.replicate 30 ('a'), 0, 1, 0, 30, none⟩]) :=
  c5_semantic_delegation 10 2 50 (List.replicate 30 ('a')) none
    [⟨List.replicate 10 ('a'), 0, 4, 0, 10, none⟩,
     ⟨List.replicate 10 ('a'), 1, 4, 8, 18, none⟩,
     ⟨List.replicate 10 ('a'), 2, 4, 16, 26, none⟩,
     ⟨List.replicate 6 ('a'), 3, 4, 24, 30, none⟩]
    (by decide) (by decide) (by decide)

/-! ## C8 — per-segment failure isolation -/

/-- The extraction loop keeps exactly the successful results, in order, and
warns (with the chunk index) for exactly the failing chunks. -/
theorem extractLoop_spec (extract : List Char → Except String ExtractionResult) :
    ∀ chunks : List DocumentChunk,
      (extractLoop extract chunks).1
        = chunks.filterMap (fun c => (extract c.content).toOption)
      ∧ (extractLoop extract chunks).2
        = (chunks.filter (fun c => !(extract c.content).toOption.isSome)).map
            (fun c => c.chunk_index) := by
  intro chunks
  induction chunks with
  | nil => exact ⟨rfl, rfl⟩
  | cons c rest ih =>
    unfold extractLoop
    cases he : extract c.content with
    | ok r =>
      refine ⟨?_, ?_⟩
      · simp [List.filterMap_cons, he, Except.toOption, ih.1]
      · simp [List.filter_cons, he, Except.toOption, ih.2]
    | error e =>
      refine ⟨?_, ?_⟩
      · simp [List.filterMap_cons, he, Except.toOption, ih.1]
      · simp [List.filter_cons, he, Except.toOption, ih.2]

/-- C8: a failing segment is dropped from the partial-result list (with a
warning recording its `chunk_index`) while the other segments are still
processed in order; and when every segment fails — so the partial-result
list is empty — the invoker raises the hard `"No chunk results to merge"`
failure instead of returning a merged result. -/
theorem c8_segment_failure_isolation
    (extract : List Char → Except String ExtractionResult)
    (chunks : List DocumentChunk) :
    ((extractLoop extract chunks).1
      = chunks.filterMap (fun c => (extract c.content).toOption)
    ∧ (extractLoop extract chunks).2
      = (chunks.filter (fun c => !(extract c.content).toOption.isSome)).map
          (fun c => c.chunk_index))
    ∧ ((∀ c ∈ chunks, (extract c.content).toOption = none) →
        extractFromChunks none extract chunks
          = Except.error "No chunk results to merge") := by
  refine ⟨extractLoop_spec extract chunks, ?_⟩
  intro hall
  unfold extractFromChunks
  dsimp only
  have h1 : (extractLoop extract chunks).1 = [] := by
    rw [(extractLoop_spec extract chunks).1]
    exact List.filterMap_eq_nil_iff.mpr hall
  rw [h1]
  rfl

/-- C8 witness: two concrete chunks with an extractor that always fails —
both are dropped with warnings `[0, 1]` and the invoker errors out. -/
theorem c8_segment_failure_isolation_witness :
    ((extractLoop (fun _ => Except.error "boom")
        [⟨("x").data, 0, 2, none, none, 1⟩, ⟨("y").data, 1, 2, none, none, 1⟩]).1
      = ([⟨("x").data, 0, 2, none, none, 1⟩,
          ⟨("y").data, 1, 2, none, none, 1⟩] : List DocumentChunk).filterMap
          (fun _ => ((Except.error "boom" : Except String ExtractionResult)).toOption)
    ∧ (extractLoop (fun _ => Except.error "boom")
        [⟨("x").data, 0, 2, none, none, 1⟩, ⟨("y").data, 1, 2, none, none, 1⟩]).2
      = (([⟨("x").data, 0, 2, none, none, 1⟩,
           ⟨("y").data, 1, 2, none, none, 1⟩] : List DocumentChunk).filter
          (fun _ => !((Except.error "boom" : Except String ExtractionResult)).toOption.isSome)).map
          (fun c => c.chunk_index))
    ∧ ((∀ c ∈ ([⟨("x").data, 0, 2, none, none, 1⟩,
                ⟨("y").data, 1, 2, none, none, 1⟩] : List DocumentChunk),
          ((Except.error "boom" : Except String ExtractionResult)).toOption = none) →
        extractFromChunks none (fun _ => Except.error "boom")
            [⟨("x").data, 0, 2, none, none, 1⟩, ⟨("y").data, 1, 2, none, none, 1⟩]
          = Except.error "No chunk results to merge") :=
  c8_segment_failure_isolation (fun _ => Except.error "boom")
    [⟨("x").data, 0, 2, none, none, 1⟩, ⟨("y").data, 1, 2, none, none, 1⟩]

/-! ## C9 — max_segments truncation -/

/-- C9 counterexample: truncation is not recorded anywhere.  With
`max_chunks_to_process = 1` and two available chunks (both of which the
extractor would handle successfully), the invoker processes only the first
chunk and returns its extraction result verbatim — `metadata = none`, so no
flag or count visible to the caller records that the second chunk was cut. -/
theorem c9_counterexample_truncation_unrecorded :
    extractFromChunks (some 1)
        (fun content => Except.ok
          { extracted_data := [("f", PyValue.str (String.mk content))]
            confidence_scores := [("f", mkRat 9 10)]
            raw_response := "r"
            model_used := "m"
            provider_type := "p"
            tokens_used := none
            processing_time := none
            metadata := none })
        [⟨("x").data, 0, 2, none, none, 1⟩, ⟨("y").data, 1, 2, none, none, 1⟩]
      = Except.ok
          { extracted_data := [("f", PyValue.str "x")]
            confidence_scores := [("f", mkRat 9 10)]
            raw_response := "r"
            model_used := "m"
            provider_type := "p"
            tokens_used := none
            processing_time := none
            metadata := none }
    ∧ ({ extracted_data := [("f", PyValue.str "x")]
         confidence_scores := [("f", mkRat 9 10)]
         raw_response := "r"
         model_used := "m"
         provider_type := "p"
         tokens_used := none
         processing_time := none
         metadata := none } : ExtractionResult).metadata = none := by
  refine ⟨rfl, rfl⟩

/-- C9 (amended): when `max_chunks_to_process = m > 0` is set, exactly the
first `m` chunks (a list-slice, i.e. ascending index order) are consulted by
the extraction loop and the merge runs on the successes among them; but the
result does not record that truncation occurred — in particular, when the
kept chunks produce a single partial, that partial is returned with its own
metadata unchanged. -/
theorem c9_truncation_first_m (m : Nat) (hm : m ≠ 0)
    (extract : List Char → Except String ExtractionResult)
    (chunks : List DocumentChunk) :
    extractFromChunks (some m) extract chunks
      = mergeChunkResults ((chunks.take m).filterMap
          (fun c => (extract c.content).toOption))
    ∧ ∀ r : ExtractionResult,
        (chunks.take m).filterMap (fun c => (extract c.content).toOption) = [r] →
        extractFromChunks (some m) extract chunks = Except.ok r := by
  have h1 : extractFromChunks (some m) extract chunks
      = mergeChunkResults ((chunks.take m).filterMap
          (fun c => (extract c.content).toOption)) := by
    unfold extractFromChunks
    dsimp only
    rw [if_pos hm, (extractLoop_spec extract (chunks.take m)).1]
  refine ⟨h1, ?_⟩
  intro r hr
  rw [h1, hr]
  rfl

/-- C9 witness: the amended statement at `m = 1` with two chunks and an
always-succeeding extractor. -/
theorem c9_truncation_first_m_witness :
    extractFromChunks (some 1)
        (fun content => Except.ok
          { extracted_data := [("g", PyValue.str (String.mk content))]
            confidence_scores := []
            raw_response := ""
            model_used := "m"
            provider_type := "p"
            tokens_used := none
            processing_time := none
            metadata := none })
        [⟨("a").data, 0, 2, none, none, 1⟩, ⟨("b").data, 1, 2, none, none, 1⟩]
      = mergeChunkResults
          ((([⟨("a").data, 0, 2, none, none, 1⟩,
              ⟨("b").data, 1, 2, none, none, 1⟩] : List DocumentChunk).take 1).filterMap
            (fun c => ((Except.ok
              { extracted_data := [("g", PyValue.str (String.mk c.content))]
                confidence_scores := []
                raw_response := ""
                model_used := "m"
                provider_type := "p"
                tokens_used := none
                processing_time := none
                metadata := none } : Except String ExtractionResult)).toOption))
    ∧ ∀ r : ExtractionResult,
        (([⟨("a").data, 0, 2, none, none, 1⟩,
           ⟨("b").data, 1, 2, none, none, 1⟩] : List DocumentChunk).take 1).filterMap
          (fun c => ((Except.ok
            { extracted_data := [("g", PyValue.str (String.mk c.content))]
              confidence_scores := []
              raw_response := ""
              model_used := "m"
              provider_type := "p"
              tokens_used := none
              processing_time := none
              metadata := none } : Except String ExtractionResult)).toOption) = [r] →
        extractFromChunks (some 1)
          (fun content => Except.ok
            { extracted_data := [("g", PyValue.str (String.mk content))]
              confidence_scores := []
              raw_response := ""
              model_used := "m"
              provider_type := "p"
              tokens_used := none
              processing_time := none
              metadata := none })
          [⟨("a").data, 0, 2, none, none, 1⟩, ⟨("b").data, 1, 2, none, none, 1⟩]
          = Except.ok r :=
  c9_truncation_first_m 1 (by decide)
    (fun content => Except.ok
      { extracted_data := [("g", PyValue.str (String.mk content))]
        confidence_scores := []
        raw_response := ""
        model_used := "m"
        provider_type := "p"
        tokens_used := none
        processing_time := none
        metadata := none })
    [⟨("a").data, 0, 2, none, none, 1⟩, ⟨("b").data, 1, 2, none, none, 1⟩]

/-! ## Dictionary lemmas -/

theorem dget_nil {α : Type} (k : String) : dget ([] : List (String × α)) k = none := rfl

theorem dget_cons {α : Type} (k' : String) (v' : α) (rest : List (String × α))
    (k : String) :
    dget ((k', v') :: rest) k = if k' = k then some v' else dget rest k := by
  unfold dget
  by_cases h : k' = k
  · rw [if_pos h]
    rw [List.find?_cons_of_pos _ (by simp [h])]
    rfl
  · rw [if_neg h]
    rw [List.find?_cons_of_neg _ (by simp [h])]

theorem dget_dset_self {α : Type} :
    ∀ (d : List (String × α)) (k : String) (v : α),
      dget (dset d k v) k = some v := by
  intro d
  induction d with
  | nil => intro k v; simp [dset, dget]
  | cons kv rest ih =>
    intro k v
    obtain ⟨k', v'⟩ := kv
    unfold dset
    by_cases h : k' = k
    · rw [if_pos (by simp [h])]
      rw [dget_cons, if_pos rfl]
    · rw [if_neg (by simp [h])]
      rw [dget_cons, if_neg h]
      exact ih k v

theorem dget_dset_ne {α : Type} :
    ∀ (d : List (String × α)) (k g : String) (v : α), k ≠ g →
      dget (dset d k v) g = dget d g := by
  intro d
  induction d with
  | nil =>
    intro k g v hkg
    simp only [dset]
    rw [dget_cons, if_neg hkg, dget_nil]
  | cons kv rest ih =>
    intro k g v hkg
    obtain ⟨k', v'⟩ := kv
    unfold dset
    by_cases h : k' = k
    · rw [if_pos (by simp [h])]
      rw [dget_cons, dget_cons, if_neg hkg, if_neg (fun hc => hkg (h ▸ hc))]
    · rw [if_neg (by simp [h])]
      rw [dget_cons, dget_cons]
      by_cases h2 : k' = g
      · rw [if_pos h2, if_pos h2]
      · rw [if_neg h2, if_neg h2]
        exact ih k g v hkg

theorem mapFst_dset {α : Type} :
    ∀ (d : List (String × α)) (k : String) (v : α),
      (dset d k v).map Prod.fst
        = if (dget d k).isSome then d.map Prod.fst
          else d.map Prod.fst ++ [k] := by
  intro d
  induction d with
  | nil => intro k v; simp [dset, dget]
  | cons kv rest ih =>
    intro k v
    obtain ⟨k', v'⟩ := kv
    unfold dset
    rw [dget_cons]
    by_cases h : k' = k
    · rw [if_pos (by simp [h]), if_pos h]
      simp [h]
    · rw [if_neg (by simp [h]), if_neg h]
      simp only [List.map_cons, ih k v]
      by_cases h2 : (dget rest k).isSome
      · rw [if_pos h2, if_pos h2]
      · rw [if_neg h2, if_neg h2]
        simp

/-! ## `listMaxQ` lemmas -/

theorem listMaxQ_eq_none {l : List ℚ} : listMaxQ l = none ↔ l = [] := by
  cases l with
  | nil => simp [listMaxQ]
  | cons x xs =>
    simp only [listMaxQ]
    cases listMaxQ xs <;> simp

theorem listMaxQ_concat :
    ∀ (l : List ℚ) (x : ℚ),
      listMaxQ (l ++ [x])
        = some ((listMaxQ l).elim x (fun m => max m x)) := by
  intro l
  induction l with
  | nil => intro x; simp [listMaxQ]
  | cons y rest ih =>
    intro x
    rw [List.cons_append]
    cases hr : listMaxQ rest with
    | none =>
      rw [listMaxQ_eq_none.mp hr]
      simp [listMaxQ]
    | some m =>
      simp only [listMaxQ, ih x, hr, Option.elim]
      rw [max_assoc]

theorem listMaxQ_le :
    ∀ (l : List ℚ) (m x : ℚ), listMaxQ l = some m → x ∈ l → x ≤ m := by
  intro l
  induction l with
  | nil => intro m x _ hx; exact absurd hx (by simp)
  | cons y rest ih =>
    intro m x hm hx
    simp only [listMaxQ] at hm
    cases hr : listMaxQ rest with
    | none =>
      rw [hr] at hm
      have hy : y = m := Option.some.inj hm
      rw [listMaxQ_eq_none.mp hr] at hx
      rw [List.mem_singleton] at hx
      rw [hx, hy]
    | some mr =>
      rw [hr] at hm
      have hy := Option.some.inj hm
      rcases List.mem_cons.mp hx with h1 | h1
      · rw [h1, ← hy]; exact le_max_left y mr
      · calc x ≤ mr := ih mr x hr h1
          _ ≤ max y mr := le_max_right y mr
          _ = m := hy

/-! ## The merge fold, field by field -/

/-- Effect of folding one partial's `(field, value)` items into the merge
state, observed at a single field `f`: if `f` does not occur among the items
the state at `f` is untouched; if it occurs (first value `v`), the pair
`(v, confidence.get(f, 0.0))` replaces the state at `f` exactly when `f` was
unset or strictly beaten, and the state is untouched otherwise. -/
theorem mergeStep_at (r : ExtractionResult) :
    ∀ (items : List (String × PyValue)) (md : List (String × PyValue))
        (mc : List (String × ℚ)) (f : String),
      (dget items f = none →
        dget (mergeStep (md, mc) { r with extracted_data := items }).1 f
            = dget md f
        ∧ dget (mergeStep (md, mc) { r with extracted_data := items }).2 f
            = dget mc f)
      ∧ ∀ v : PyValue, dget items f = some v →
          ((dget md f = none ∨ dgetD r.confidence_scores f 0 > dgetD mc f 0) →
            dget (mergeStep (md, mc) { r with extracted_data := items }).1 f
                = some v
            ∧ dget (mergeStep (md, mc) { r with extracted_data := items }).2 f
                = some (dgetD r.confidence_scores f 0))
          ∧ (¬ (dget md f = none ∨ dgetD r.confidence_scores f 0 > dgetD mc f 0) →
            dget (mergeStep (md, mc) { r with extracted_data := items }).1 f
                = dget md f
            ∧ dget (mergeStep (md, mc) { r with extracted_data := items }).2 f
                = dget mc f) := by
  intro items
  induction items with
  | nil =>
    intro md mc f
    refine ⟨fun _ => ⟨rfl, rfl⟩, ?_⟩
    intro v hv
    rw [dget_nil] at hv
    exact absurd hv (by simp)
  | cons gw rest ih =>
    intro md mc f
    obtain ⟨g, w⟩ := gw
    have hstep : mergeStep (md, mc) { r with extracted_data := (g, w) :: rest }
        = mergeStep
            (if dget md g = none ∨ dgetD r.confidence_scores g 0 > dgetD mc g 0
              then (dset md g w, dset mc g (dgetD r.confidence_scores g 0))
              else (md, mc))
            { r with extracted_data := rest } := rfl
    rw [hstep]
    by_cases hcnd : dget md g = none ∨ dgetD r.confidence_scores g 0 > dgetD mc g 0
    · rw [if_pos hcnd]
      by_cases hgf : g = f
      · subst hgf
        have hres : dget (mergeStep (dset md g w,
              dset mc g (dgetD r.confidence_scores g 0))
              { r with extracted_data := rest }).1 g = some w
            ∧ dget (mergeStep (dset md g w,
              dset mc g (dgetD r.confidence_scores g 0))
              { r with extracted_data := rest }).2 g
                = some (dgetD r.confidence_scores g 0) := by
          cases hrf : dget rest g with
          | none =>
            have h1 := (ih (dset md g w)
              (dset mc g (dgetD r.confidence_scores g 0)) g).1 hrf
            rw [h1.1, h1.2, dget_dset_self, dget_dset_self]
            exact ⟨rfl, rfl⟩
          | some w2 =>
            have h2 := ((ih (dset md g w)
              (dset mc g (dgetD r.confidence_scores g 0)) g).2 w2 hrf).2
            have hnc : ¬ (dget (dset md g w) g = none
                ∨ dgetD r.confidence_scores g 0
                  > dgetD (dset mc g (dgetD r.confidence_scores g 0)) g 0) := by
              rw [dget_dset_self]
              unfold dgetD
              rw [dget_dset_self]
              simp
            have h3 := h2 hnc
            rw [h3.1, h3.2, dget_dset_self, dget_dset_self]
            exact ⟨rfl, rfl⟩
        refine ⟨?_, ?_⟩
        · intro hnone
          rw [dget_cons, if_pos rfl] at hnone
          exact absurd hnone (by simp)
        · intro v hv
          rw [dget_cons, if_pos rfl] at hv
          have hvw : w = v := Option.some.inj hv
          subst hvw
          refine ⟨fun _ => hres, fun hc => absurd hcnd hc⟩
      · have e1 : dget (dset md g w) f = dget md f := dget_dset_ne md g f w hgf
        have e2 : dget (dset mc g (dgetD r.confidence_scores g 0)) f
            = dget mc f := dget_dset_ne mc g f _ hgf
        have e3 : dgetD (dset mc g (dgetD r.confidence_scores g 0)) f 0
            = dgetD mc f 0 := by
          show (dget (dset mc g (dgetD r.confidence_scores g 0)) f).getD 0
            = (dget mc f).getD 0
          rw [e2]
        have ihr := ih (dset md g w)
          (dset mc g (dgetD r.confidence_scores g 0)) f
        simp only [e1, e2, e3] at ihr
        rw [dget_cons, if_neg hgf]
        exact ihr
    · rw [if_neg hcnd]
      by_cases hgf : g = f
      · subst hgf
        have hres : dget (mergeStep (md, mc)
              { r with extracted_data := rest }).1 g = dget md g
            ∧ dget (mergeStep (md, mc)
              { r with extracted_data := rest }).2 g = dget mc g := by
          cases hrf : dget rest g with
          | none => exact (ih md mc g).1 hrf
          | some w2 => exact ((ih md mc g).2 w2 hrf).2 hcnd
        refine ⟨?_, ?_⟩
        · intro hnone
          rw [dget_cons, if_pos rfl] at hnone
          exact absurd hnone (by simp)
        · intro v hv
          refine ⟨fun hc => absurd hc hcnd, fun _ => hres⟩
      · rw [dget_cons, if_neg hgf]
        exact ih md mc f

theorem mergeStateOk_nil : MergeStateOk [] [] [] := by
  intro f
  refine ⟨fun _ => ⟨rfl, rfl⟩, ?_⟩
  intro m hm
  simp [listMaxQ] at hm

/-- Folding one more partial preserves the merge-state characterization. -/
theorem mergeStep_inv (ps : List ExtractionResult) (r : ExtractionResult)
    (md : List (String × PyValue)) (mc : List (String × ℚ))
    (h : MergeStateOk ps md mc) :
    MergeStateOk (ps ++ [r]) (mergeStep (md, mc) r).1
      (mergeStep (md, mc) r).2 := by
  intro f
  have hat :
      (dget r.extracted_data f = none →
        dget (mergeStep (md, mc) r).1 f = dget md f
        ∧ dget (mergeStep (md, mc) r).2 f = dget mc f)
      ∧ ∀ v : PyValue, dget r.extracted_data f = some v →
          ((dget md f = none ∨ dgetD r.confidence_scores f 0 > dgetD mc f 0) →
            dget (mergeStep (md, mc) r).1 f = some v
            ∧ dget (mergeStep (md, mc) r).2 f
                = some (dgetD r.confidence_scores f 0))
          ∧ (¬ (dget md f = none ∨ dgetD r.confidence_scores f 0 > dgetD mc f 0) →
            dget (mergeStep (md, mc) r).1 f = dget md f
            ∧ dget (mergeStep (md, mc) r).2 f = dget mc f) :=
    mergeStep_at r r.extracted_data md mc f
  by_cases hpr : presentIn f r
  · -- the field occurs in r
    obtain ⟨v, hv⟩ : ∃ v, dget r.extracted_data f = some v :=
      Option.isSome_iff_exists.mp hpr
    have hfilt : (ps ++ [r]).filter (fun p => presentIn f p)
        = ps.filter (fun p => presentIn f p) ++ [r] := by
      rw [List.filter_append]
      simp [List.filter_cons, hpr]
    have hmap : ((ps ++ [r]).filter (fun p => presentIn f p)).map
          (fun p => confAt f p)
        = (ps.filter (fun p => presentIn f p)).map (fun p => confAt f p)
          ++ [confAt f r] := by
      rw [hfilt, List.map_append]
      rfl
    have hcat := listMaxQ_concat
      ((ps.filter (fun p => presentIn f p)).map (fun p => confAt f p))
      (confAt f r)
    cases hold : listMaxQ ((ps.filter (fun p => presentIn f p)).map
        (fun p => confAt f p)) with
    | none =>
      -- f is absent from every earlier partial
      have hmd := (h f).1 hold
      have hcond : dget md f = none ∨ dgetD r.confidence_scores f 0
          > dgetD mc f 0 := Or.inl hmd.1
      have hres := (hat.2 v hv).1 hcond
      have hnew : listMaxQ (((ps ++ [r]).filter (fun p => presentIn f p)).map
          (fun p => confAt f p)) = some (confAt f r) := by
        rw [hmap, hcat, hold]
        rfl
      have hfnone : ps.find? (fun p => presentIn f p && (confAt f p == confAt f r))
          = none := by
        rw [List.find?_eq_none]
        intro p hp
        have hfe : ps.filter (fun p => presentIn f p) = [] := by
          have := listMaxQ_eq_none.mp hold
          exact List.map_eq_nil_iff.mp this
        have hnp : ¬ (presentIn f p = true) := by
          have := List.filter_eq_nil_iff.mp hfe p hp
          simpa using this
        simp [hnp]
      refine ⟨?_, ?_⟩
      · intro hcontra
        rw [hnew] at hcontra
        exact absurd hcontra (by simp)
      · intro m hm
        rw [hnew] at hm
        have hmc : confAt f r = m := Option.some.inj hm
        subst hmc
        refine ⟨?_, r, ?_, ?_⟩
        · rw [hres.2]
          rfl
        · rw [List.find?_append, hfnone, Option.none_or]
          have hq : (presentIn f r && (confAt f r == confAt f r)) = true := by
            simp [hpr]
          simp [List.find?_cons, hq, hpr]
        · rw [hres.1, hv]
    | some mOld =>
      obtain ⟨hmcOld, p0, hfind0, hmd0⟩ := (h f).2 mOld hold
      have hp0pres : presentIn f p0 = true := by
        have hq := List.find?_some hfind0
        rw [Bool.and_eq_true] at hq
        exact hq.1
      have hmdSome : (dget md f).isSome := by
        rw [hmd0]
        exact hp0pres
      have hgetD : dgetD mc f 0 = mOld := by
        show (dget mc f).getD 0 = mOld
        rw [hmcOld]
        rfl
      have hnew : listMaxQ (((ps ++ [r]).filter (fun p => presentIn f p)).map
          (fun p => confAt f p)) = some (max mOld (confAt f r)) := by
        rw [hmap, hcat, hold]
        rfl
      by_cases hgt : confAt f r > mOld
      · -- r strictly beats every earlier partial
        have hcond : dget md f = none ∨ dgetD r.confidence_scores f 0
            > dgetD mc f 0 := by
          right
          rw [hgetD]
          exact hgt
        have hres := (hat.2 v hv).1 hcond
        have hmaxr : max mOld (confAt f r) = confAt f r :=
          max_eq_right (le_of_lt hgt)
        have hfnone : ps.find?
            (fun p => presentIn f p && (confAt f p == confAt f r)) = none := by
          rw [List.find?_eq_none]
          intro p hp
          by_cases hpp : presentIn f p = true
          · have hmem : confAt f p ∈ (ps.filter
                (fun p => presentIn f p)).map (fun p => confAt f p) := by
              apply List.mem_map_of_mem
              rw [List.mem_filter]
              exact ⟨hp, hpp⟩
            have hle := listMaxQ_le _ mOld (confAt f p) hold hmem
            have hne : ¬ (confAt f p == confAt f r) = true := by
              simp only [beq_iff_eq]
              intro hc
              rw [hc] at hle
              exact absurd hgt (not_lt.mpr hle)
            simp [hne]
          · simp [hpp]
        refine ⟨?_, ?_⟩
        · intro hcontra
          rw [hnew] at hcontra
          exact absurd hcontra (by simp)
        · intro m hm
          rw [hnew, hmaxr] at hm
          have hmc : confAt f r = m := Option.some.inj hm
          subst hmc
          refine ⟨?_, r, ?_, ?_⟩
          · rw [hres.2]
            rfl
          · rw [List.find?_append, hfnone, Option.none_or]
            have hq : (presentIn f r && (confAt f r == confAt f r)) = true := by
              simp [hpr]
            simp [List.find?_cons, hq, hpr]
          · rw [hres.1, hv]
      · -- r does not beat the running maximum: state unchanged at f
        have hcond : ¬ (dget md f = none
            ∨ dgetD r.confidence_scores f 0 > dgetD mc f 0) := by
          intro hc
          rcases hc with hc | hc
          · rw [hc] at hmdSome
            exact absurd hmdSome (by simp)
          · rw [hgetD] at hc
            exact hgt hc
        have hres := (hat.2 v hv).2 hcond
        have hmaxl : max mOld (confAt f r) = mOld :=
          max_eq_left (le_of_not_lt hgt)
        refine ⟨?_, ?_⟩
        · intro hcontra
          rw [hnew] at hcontra
          exact absurd hcontra (by simp)
        · intro m hm
          rw [hnew, hmaxl] at hm
          have hmm : mOld = m := Option.some.inj hm
          subst hmm
          refine ⟨by rw [hres.2]; exact hmcOld, p0, ?_, ?_⟩
          · rw [List.find?_append, hfind0]
            rfl
          · rw [hres.1]
            exact hmd0
  · -- the field does not occur in r: everything is inherited from ps
    have hnone : dget r.extracted_data f = none := by
      unfold presentIn at hpr
      exact Option.not_isSome_iff_eq_none.mp (by simpa using hpr)
    have hunch := hat.1 hnone
    have hfilt : (ps ++ [r]).filter (fun p => presentIn f p)
        = ps.filter (fun p => presentIn f p) := by
      rw [List.filter_append]
      simp [List.filter_cons, hpr]
    refine ⟨?_, ?_⟩
    · intro hcontra
      rw [hfilt] at hcontra
      have := (h f).1 hcontra
      rw [hunch.1, hunch.2]
      exact this
    · intro m hm
      rw [hfilt] at hm
      obtain ⟨hmc, p0, hfind0, hmd0⟩ := (h f).2 m hm
      refine ⟨by rw [hunch.2]; exact hmc, p0, ?_, by rw [hunch.1]; exact hmd0⟩
      rw [List.find?_append, hfind0]
      rfl

theorem mergeFold_inv :
    ∀ (rs ps : List ExtractionResult) (md : List (String × PyValue))
        (mc : List (String × ℚ)),
      MergeStateOk ps md mc →
      MergeStateOk (ps ++ rs) (rs.foldl mergeStep (md, mc)).1
        (rs.foldl mergeStep (md, mc)).2 := by
  intro rs
  induction rs with
  | nil =>
    intro ps md mc h
    simpa using h
  | cons r rest ih =>
    intro ps md mc h
    have hstep := mergeStep_inv ps r md mc h
    have hrec := ih (ps ++ [r]) (mergeStep (md, mc) r).1
      (mergeStep (md, mc) r).2 hstep
    have hassoc : (ps ++ [r]) ++ rest = ps ++ (r :: rest) := by simp
    rw [hassoc] at hrec
    simpa using hrec

theorem dget_isSome_iff_mem {α : Type} :
    ∀ (d : List (String × α)) (k : String),
      (dget d k).isSome = true ↔ k ∈ d.map Prod.fst := by
  intro d
  induction d with
  | nil => intro k; simp [dget]
  | cons kv rest ih =>
    intro k
    obtain ⟨k', v'⟩ := kv
    rw [dget_cons]
    by_cases h : k' = k
    · rw [if_pos h]
      simp [h]
    · rw [if_neg h]
      simp only [List.map_cons, List.mem_cons]
      rw [ih k]
      constructor
      · exact fun hm => Or.inr hm
      · intro hm
        rcases hm with hm | hm
        · exact absurd hm.symm h
        · exact hm

/-- The data and confidence maps always carry the same key list: the merge
updates them in lock-step. -/
theorem mergeStepItems_mapFst (r : ExtractionResult) :
    ∀ (items : List (String × PyValue)) (md : List (String × PyValue))
        (mc : List (String × ℚ)),
      md.map Prod.fst = mc.map Prod.fst →
      (mergeStep (md, mc) { r with extracted_data := items }).1.map Prod.fst
        = (mergeStep (md, mc) { r with extracted_data := items }).2.map
            Prod.fst := by
  intro items
  induction items with
  | nil =>
    intro md mc h
    exact h
  | cons gw rest ih =>
    intro md mc h
    obtain ⟨g, w⟩ := gw
    have hstep : mergeStep (md, mc) { r with extracted_data := (g, w) :: rest }
        = mergeStep
            (if dget md g = none ∨ dgetD r.confidence_scores g 0 > dgetD mc g 0
              then (dset md g w, dset mc g (dgetD r.confidence_scores g 0))
              else (md, mc))
            { r with extracted_data := rest } := rfl
    rw [hstep]
    by_cases hcnd : dget md g = none ∨ dgetD r.confidence_scores g 0 > dgetD mc g 0
    · rw [if_pos hcnd]
      apply ih
      rw [mapFst_dset, mapFst_dset, h]
      by_cases hsm : (dget md g).isSome = true
      · have hsc : (dget mc g).isSome = true :=
          (dget_isSome_iff_mem mc g).mpr (h ▸ (dget_isSome_iff_mem md g).mp hsm)
        rw [if_pos hsm, if_pos hsc]
      · have hsc : ¬ (dget mc g).isSome = true := fun hc =>
          hsm ((dget_isSome_iff_mem md g).mpr
            (h ▸ (dget_isSome_iff_mem mc g).mp hc))
        rw [if_neg hsm, if_neg hsc]
    · rw [if_neg hcnd]
      exact ih md mc h

theorem mergeFold_mapFst :
    ∀ (rs : List ExtractionResult) (md : List (String × PyValue))
        (mc : List (String × ℚ)),
      md.map Prod.fst = mc.map Prod.fst →
      (rs.foldl mergeStep (md, mc)).1.map Prod.fst
        = (rs.foldl mergeStep (md, mc)).2.map Prod.fst := by
  intro rs
  induction rs with
  | nil =>
    intro md mc h
    exact h
  | cons r rest ih =>
    intro md mc h
    have hr : (mergeStep (md, mc) r).1.map Prod.fst
        = (mergeStep (md, mc) r).2.map Prod.fst :=
      mergeStepItems_mapFst r r.extracted_data md mc h
    exact ih (mergeStep (md, mc) r).1 (mergeStep (md, mc) r).2 hr

/-! ## C1 — merge confidence maximum with first-writer tie-break -/

/-- C1: for a list of at least two partials and a field `f` present in at
least one of them (so that the maximum of `f`'s confidences over the
partials containing `f` — with a missing confidence entry counting `0.0` —
exists, say `m`), the merged confidence at `f` is exactly `m`, and the
merged value at `f` is the value of the first partial, in supplied order,
that is an attainer (`f` present and confidence `= m`): ties keep the
earlier partial. -/
theorem c1_merge_confidence_max (rs : List ExtractionResult)
    (merged : ExtractionResult) (f : String) (m : ℚ)
    (h2 : 2 ≤ rs.length)
    (hm : mergeChunkResults rs = Except.ok merged)
    (hmax : listMaxQ ((rs.filter (fun p => presentIn f p)).map
        (fun p => confAt f p)) = some m) :
    dget merged.confidence_scores f = some m
    ∧ ∃ p, rs.find? (fun p => presentIn f p && (confAt f p == m)) = some p
        ∧ dget merged.extracted_data f = dget p.extracted_data f := by
  cases rs with
  | nil => simp at h2
  | cons r0 tl =>
    cases tl with
    | nil => simp at h2
    | cons r1 rest =>
      dsimp only [mergeChunkResults] at hm
      have heq := Except.ok.inj hm
      subst heq
      have hinv := mergeFold_inv (r0 :: r1 :: rest) [] [] [] mergeStateOk_nil
      simp only [List.nil_append] at hinv
      exact (hinv f).2 m hmax

/-- C1 witness: two partials sharing field `"f"` with confidences `1/2` and
`4/5` — the merged confidence is the maximum `4/5` and the merged value is
the second partial's. -/
theorem c1_merge_confidence_max_witness :
    dget ({ extracted_data := [("f", PyValue.str "b")]
            confidence_scores := [("f", mkRat 4 5)]
            raw_response := "[Merged from multiple chunks]"
            model_used := "m1"
            provider_type := "pt"
            tokens_used := none
            processing_time := none
            metadata := some [("chunks_merged", PyValue.int 2)] }
        : ExtractionResult).confidence_scores f0c1w = some (mkRat 4 5)
    ∧ ∃ p, ([{ extracted_data := [("f", PyValue.str "a")]
               confidence_scores := [("f", mkRat 1 2)]
               raw_response := "r1"
               model_used := "m1"
               provider_type := "pt"
               tokens_used := none
               processing_time := none
               metadata := none },
             { extracted_data := [("f", PyValue.str "b")]
               confidence_scores := [("f", mkRat 4 5)]
               raw_response := "r2"
               model_used := "m2"
               provider_type := "pt"
               tokens_used := none
               processing_time := none
               metadata := none }] : List ExtractionResult).find?
          (fun p => presentIn f0c1w p && (confAt f0c1w p == mkRat 4 5))
          = some p
        ∧ dget ({ extracted_data := [("f", PyValue.str "b")]
                  confidence_scores := [("f", mkRat 4 5)]
                  raw_response := "[Merged from multiple chunks]"
                  model_used := "m1"
                  provider_type := "pt"
                  tokens_used := none
                  processing_time := none
                  metadata := some [("chunks_merged", PyValue.int 2)] }
            : ExtractionResult).extracted_data f0c1w
          = dget p.extracted_data f0c1w :=
  c1_merge_confidence_max
    [{ extracted_data := [("f", PyValue.str "a")]
       confidence_scores := [("f", mkRat 1 2)]
       raw_response := "r1"
       model_used := "m1"
       provider_type := "pt"
       tokens_used := none
       processing_time := none
       metadata := none },
     { extracted_data := [("f", PyValue.str "b")]
       confidence_scores := [("f", mkRat 4 5)]
       raw_response := "r2"
       model_used := "m2"
       provider_type := "pt"
       tokens_used := none
       processing_time := none
       metadata := none }]
    { extracted_data := [("f", PyValue.str "b")]
      confidence_scores := [("f", mkRat 4 5)]
      raw_response := "[Merged from multiple chunks]"
      model_used := "m1"
      provider_type := "pt"
      tokens_used := none
      processing_time := none
      metadata := some [("chunks_merged", PyValue.int 2)] }
    f0c1w (mkRat 4 5) (by decide) rfl (by decide)

/-! ## C10 — merged value/confidence pairing -/

/-- C10: for two or more partials, the merged `extracted_data` and
`confidence_scores` maps have exactly the same key list, and each stored
`(value, confidence)` pair at a field comes jointly from one single partial:
the value is that partial's value at the field and the confidence is that
same partial's `confidence_scores.get(field, 0.0)`. -/
theorem c10_merge_value_confidence_pairing (rs : List ExtractionResult)
    (merged : ExtractionResult)
    (h2 : 2 ≤ rs.length)
    (hm : mergeChunkResults rs = Except.ok merged) :
    merged.extracted_data.map Prod.fst = merged.confidence_scores.map Prod.fst
    ∧ ∀ (f : String) (v : PyValue), dget merged.extracted_data f = some v →
        ∃ p, p ∈ rs ∧ dget p.extracted_data f = some v
          ∧ dget merged.confidence_scores f
              = some (dgetD p.confidence_scores f 0) := by
  cases rs with
  | nil => simp at h2
  | cons r0 tl =>
    cases tl with
    | nil => simp at h2
    | cons r1 rest =>
      dsimp only [mergeChunkResults] at hm
      have heq := Except.ok.inj hm
      subst heq
      refine ⟨mergeFold_mapFst (r0 :: r1 :: rest) [] [] rfl, ?_⟩
      intro f v hv
      have hinv := mergeFold_inv (r0 :: r1 :: rest) [] [] [] mergeStateOk_nil
      simp only [List.nil_append] at hinv
      cases hmaxc : listMaxQ (((r0 :: r1 :: rest).filter
          (fun p => presentIn f p)).map (fun p => confAt f p)) with
      | none =>
        have hnone := (hinv f).1 hmaxc
        rw [hnone.1] at hv
        exact absurd hv (by simp)
      | some m =>
        obtain ⟨hmc, p, hfind, hmd⟩ := (hinv f).2 m hmaxc
        refine ⟨p, List.mem_of_find?_eq_some hfind, ?_, ?_⟩
        · rw [← hmd]
          exact hv
        · have hq := List.find?_some hfind
          rw [Bool.and_eq_true] at hq
          have hcm : confAt f p = m := eq_of_beq hq.2
          rw [hmc, ← hcm]
          rfl

/-- C10 witness: two partials sharing field `"f"` — the merged maps have the
single key `"f"`, and the stored pair is the second partial's value together
with that same partial's confidence. -/
theorem c10_merge_value_confidence_pairing_witness :
    ({ extracted_data := [("f", PyValue.str "y")]
       confidence_scores := [("f", mkRat 1 4)]
       raw_response := "[Merged from multiple chunks]"
       model_used := "m1"
       provider_type := "pt"
       tokens_used := none
       processing_time := none
       metadata := some [("chunks_merged", PyValue.int 2)] }
      : ExtractionResult).extracted_data.map Prod.fst
      = ({ extracted_data := [("f", PyValue.str "y")]
           confidence_scores := [("f", mkRat 1 4)]
           raw_response := "[Merged from multiple chunks]"
           model_used := "m1"
           provider_type := "pt"
           tokens_used := none
           processing_time := none
           metadata := some [("chunks_merged", PyValue.int 2)] }
        : ExtractionResult).confidence_scores.map Prod.fst
    ∧ ∀ (f : String) (v : PyValue),
        dget ({ extracted_data := [("f", PyValue.str "y")]
                confidence_scores := [("f", mkRat 1 4)]
                raw_response := "[Merged from multiple chunks]"
                model_used := "m1"
                provider_type := "pt"
                tokens_used := none
                processing_time := none
                metadata := some [("chunks_merged", PyValue.int 2)] }
          : ExtractionResult).extracted_data f = some v →
        ∃ p, p ∈ ([{ extracted_data := [("f", PyValue.str "x")]
                     confidence_scores := []
                     raw_response := "r1"
                     model_used := "m1"
                     provider_type := "pt"
                     tokens_used := none
                     processing_time := none
                     metadata := none },
                   { extracted_data := [("f", PyValue.str "y")]
                     confidence_scores := [("f", mkRat 1 4)]
                     raw_response := "r2"
                     model_used := "m2"
                     provider_type := "pt"
                     tokens_used := none
                     processing_time := none
                     metadata := none }] : List ExtractionResult)
          ∧ dget p.extracted_data f = some v
          ∧ dget ({ extracted_data := [("f", PyValue.str "y")]
                    confidence_scores := [("f", mkRat 1 4)]
                    raw_response := "[Merged from multiple chunks]"
                    model_used := "m1"
                    provider_type := "pt"
                    tokens_used := none
                    processing_time := none
                    metadata := some [("chunks_merged", PyValue.int 2)] }
              : ExtractionResult).confidence_scores f
            = some (dgetD p.confidence_scores f 0) :=
  c10_merge_value_confidence_pairing
    [{ extracted_data := [("f", PyValue.str "x")]
       confidence_scores := []
       raw_response := "r1"
       model_used := "m1"
       provider_type := "pt"
       tokens_used := none
       processing_time := none
       metadata := none },
     { extracted_data := [("f", PyValue.str "y")]
       confidence_scores := [("f", mkRat 1 4)]
       raw_response := "r2"
       model_used := "m2"
       provider_type := "pt"
       tokens_used := none
       processing_time := none
       metadata := none }]
    { extracted_data := [("f", PyValue.str "y")]
      confidence_scores := [("f", mkRat 1 4)]
      raw_response := "[Merged from multiple chunks]"
      model_used := "m1"
      provider_type := "pt"
      tokens_used := none
      processing_time := none
      metadata := some [("chunks_merged", PyValue.int 2)] }
    (by decide) rfl
